import Mathlib

/-
  Verification development for the pair-ratio trading strategy core:
  the swing-pivot detector (my_indicators/swing_levels.py), the bar-history
  ledger, breakout and rebalance engine, and the order sequencer / fill
  aggregator (strategies/pair_ratio.py).  Python floats are modelled as
  rationals, Python None as Option, and the class state as explicit
  structures with pure step functions.
-/

/-- Python int() conversion: truncation toward zero. -/
def pyInt (q : ℚ) : ℤ := if q < 0 then ⌈q⌉ else ⌊q⌋

/-- Python float floor division a // b (result is the floor, as a float). -/
def pyFloorDiv (a b : ℚ) : ℚ := (⌊a / b⌋ : ℤ)

/-- Banker rounding (round half to even), as used by Python round(). -/
def roundHalfEven (q : ℚ) : ℤ :=
  if q - ⌊q⌋ < 1/2 then ⌊q⌋
  else if 1/2 < q - ⌊q⌋ then ⌊q⌋ + 1
  else if 2 ∣ ⌊q⌋ then ⌊q⌋ else ⌊q⌋ + 1

/-- Python format(x, fmt-4f) followed by Price.from_str: four decimal places. -/
def fmt4 (q : ℚ) : ℚ := (roundHalfEven (q * 10000) : ℤ) / 10000

/-- Python round(x, 2). -/
def pyRound2 (q : ℚ) : ℚ := (roundHalfEven (q * 100) : ℤ) / 100

/-- Python truthiness of an optional float: None and 0.0 are falsy. -/
def pyTruthy (v : Option ℚ) : Prop := v ≠ none ∧ v ≠ some 0

instance (v : Option ℚ) : Decidable (pyTruthy v) := by
  unfold pyTruthy; infer_instance

/-- The six bar streams subscribed by the strategy. -/
inductive StreamId where
  | aS | bS | ratioS | aL | bL | ratioL
deriving DecidableEq, Inhabited, Repr

/-- A delivered bar: stream identity, nanosecond timestamp and OHLC values. -/
structure InBar where
  stream : StreamId
  ts : ℤ
  o : ℚ
  h : ℚ
  l : ℚ
  c : ℚ
deriving DecidableEq, Inhabited, Repr

/-- One cached OHLC quadruple (a cache slot is set all at once from a bar). -/
structure Bar4 where
  o : ℚ
  h : ℚ
  l : ℚ
  c : ℚ
deriving DecidableEq, Inhabited, Repr

/-- The two instruments of the pair. -/
inductive Inst where
  | A | B
deriving DecidableEq, Inhabited, Repr

/-- Order side. -/
inductive Side where
  | buy | sell
deriving DecidableEq, Inhabited, Repr

/-- Breakout direction recorded in the dedupe marker. -/
inductive Dir where
  | low | high
deriving DecidableEq, Inhabited, Repr

/-- A submitted limit order (time in force is always GTC in the source). -/
structure Order where
  inst : Inst
  side : Side
  qty : ℤ
  price : ℚ
  reduceOnly : Bool
deriving DecidableEq, Inhabited, Repr

/-- The single stored pending-buy instruction. -/
structure PendingBuy where
  inst : Inst
  qty : ℤ
  price : ℚ
deriving DecidableEq, Inhabited, Repr

/-- Asset group passed to the sizing routine: id, price, current quantity. -/
structure AssetInfo where
  id : Inst
  price : ℚ
  qty : ℚ
deriving DecidableEq, Inhabited, Repr

/-- Result of one call of the sizing routine: orders submitted during the
call, buy legs stored (deferred) instead of submitted, and the flip/adjust
log classification. -/
structure CalcResult where
  orders : List Order
  deferred : List PendingBuy
  flip : Bool
deriving DecidableEq, Repr

/-- External account view: held quantities and free cash, as returned by
the portfolio/cache collaborators. -/
structure AccountView where
  qtyA : ℚ
  qtyB : ℚ
  cash : ℚ
deriving DecidableEq, Inhabited, Repr

/-- An order-filled event. -/
structure FillEvent where
  inst : Inst
  side : Side
  qty : ℚ
  px : ℚ
  ts : ℤ
deriving DecidableEq, Inhabited, Repr

/-- One row of the bar-history ledger (df_history), keyed by timestamp. -/
structure Row where
  ts : ℤ
  lIndex : ℤ
  aS : Option Bar4
  bS : Option Bar4
  ratioS : Option Bar4
  aL : Option Bar4
  bL : Option Bar4
  ratioL : Option Bar4
  swingSLow : Option ℚ
  swingSHigh : Option ℚ
  swingLLow : Option ℚ
  swingLHigh : Option ℚ
deriving DecidableEq, Inhabited, Repr

/-- One daily aggregated fill record (daily_fills_log entry). -/
structure DayRecord where
  date : ℤ
  allocType : Option String
  orderSideA : Option String
  fillQtyA : ℚ
  fillPriceA : ℚ
  fillValueA : ℚ
  orderSideB : Option String
  fillQtyB : ℚ
  fillPriceB : ℚ
  fillValueB : ℚ
  positionA : ℚ
  positionB : ℚ
  availableCash : ℚ
  totalPosition : ℚ
  posChange : ℚ
  prevTotalP : ℚ
deriving DecidableEq, Inhabited, Repr

/-- The last n elements of a list (a deque of maximum length n after an
append keeps exactly these). -/
def lastN (n : ℕ) (xs : List α) : List α := xs.drop (xs.length - n)

/-- Python max over a nonempty list (0 on the empty list, unreachable). -/
def listMax : List ℚ → ℚ
  | [] => 0
  | x :: xs => xs.foldl max x

/-- Python min over a nonempty list (0 on the empty list, unreachable). -/
def listMin : List ℚ → ℚ
  | [] => 0
  | x :: xs => xs.foldl min x

/-- State of one SwingLevels indicator instance. -/
structure SwingState where
  sizeR : ℕ
  sizeL : ℕ
  highs : List ℚ
  lows : List ℚ
  bars : List InBar
  pivotHigh : Option ℚ
  pivotLow : Option ℚ
  pivotHighHistory : List InBar
  pivotLowHistory : List InBar
deriving DecidableEq, Inhabited, Repr

/-- Window size L + R + 1 required to detect a pivot. -/
def SwingState.windowSize (s : SwingState) : ℕ := s.sizeL + s.sizeR + 1

/-- A freshly constructed SwingLevels indicator.  The constructor requires
both sizes to be positive integers (PyCondition.positive_int). -/
def swingInit (r l : ℕ) : SwingState :=
  { sizeR := r, sizeL := l, highs := [], lows := [], bars := [],
    pivotHigh := none, pivotLow := none,
    pivotHighHistory := [], pivotLowHistory := [] }

/-- SwingLevels.handle_bar: push the bar into the ring buffers, reset the
outputs, and once the window is full test the candidate at index L: a
pivot high needs the candidate high to equal the window maximum and to be
strictly greater than the window minimum; symmetrically for pivot lows.
The originating bar (R+1 positions before the newest end) is appended to
the permanent history on confirmation. -/
def SwingState.handleBar (s : SwingState) (bar : InBar) : SwingState :=
  let highs := lastN s.windowSize (s.highs ++ [bar.h])
  let lows := lastN s.windowSize (s.lows ++ [bar.l])
  let bbars := lastN s.windowSize (s.bars ++ [bar])
  if highs.length < s.windowSize then
    { s with highs := highs, lows := lows, bars := bbars,
             pivotHigh := none, pivotLow := none }
  else
    let candHigh := highs.getD s.sizeL 0
    let candLow := lows.getD s.sizeL 0
    let candBar := bbars.getD (bbars.length - (s.sizeR + 1)) bar
    let highHit := candHigh = listMax highs ∧ listMin highs < candHigh
    let lowHit := candLow = listMin lows ∧ candLow < listMax lows
    { s with highs := highs, lows := lows, bars := bbars,
             pivotHigh := if highHit then some candHigh else none,
             pivotLow := if lowHit then some candLow else none,
             pivotHighHistory :=
               if highHit then s.pivotHighHistory ++ [candBar]
               else s.pivotHighHistory,
             pivotLowHistory :=
               if lowHit then s.pivotLowHistory ++ [candBar]
               else s.pivotLowHistory }

/-- Feed a list of bars through the indicator in order. -/
def runSwing (s : SwingState) (bars : List InBar) : SwingState :=
  bars.foldl SwingState.handleBar s

/-- qty_to_sell_l of the sizing routine: current low-weight quantity minus
the floored target quantity of the low-weight asset. -/
def qtyToSellL (aL : AssetInfo) (total ratioH : ℚ) : ℤ :=
  pyInt (aL.qty - pyFloorDiv (total - total * ratioH) aL.price)

/-- qty_to_buy_h of the sizing routine: floored target quantity of the
high-weight asset minus its current quantity. -/
def qtyToBuyH (aH : AssetInfo) (total ratioH : ℚ) : ℤ :=
  pyInt (pyFloorDiv (total * ratioH) aH.price - aH.qty)

/-- PairRatioStrategy._calc_submit_orders: compute both quantity deltas,
submit the sell legs immediately (reduce-only GTC limit at the formatted
close), and either submit the buy legs immediately (when nothing was sold)
or record them as deferred pending-buy instructions.  The threshold enters
only the flip/adjust log classification. -/
def calcSubmitOrders (aH aL : AssetInfo) (total ratioH thresh : ℚ) : CalcResult :=
  let qsl := qtyToSellL aL total ratioH
  let qbh := qtyToBuyH aH total ratioH
  let ratioLow := if 0 < total then aL.qty * aL.price / total else 0
  let flip : Bool := decide (ratioH - thresh < ratioLow)
  let lpB := fmt4 aL.price
  let lpA := fmt4 aH.price
  let sold := 0 < qsl ∨ qbh < 0
  let sells :=
    (if 0 < qsl then [Order.mk aL.id Side.sell qsl lpB true] else []) ++
    (if qbh < 0 then [Order.mk aH.id Side.sell (-qbh) lpA true] else [])
  let buyLegs :=
    (if qsl < 0 then [PendingBuy.mk aL.id (-qsl) lpB] else []) ++
    (if 0 < qbh then [PendingBuy.mk aH.id qbh lpA] else [])
  if sold then
    { orders := sells, deferred := buyLegs, flip := flip }
  else
    { orders := sells ++ buyLegs.map (fun p => Order.mk p.inst Side.buy p.qty p.price false),
      deferred := [], flip := flip }

/-- Effect of one sizing call on the single pending-buy slot: each deferred
buy overwrites the slot in turn; with no deferral the slot keeps its
previous (possibly stale) content. -/
def applyDeferred (prev : Option PendingBuy) (ds : List PendingBuy) : Option PendingBuy :=
  match ds.getLast? with
  | some p => some p
  | none => prev

/-- The limit BUY order submitted for a released pending instruction. -/
def pendingToOrder (p : PendingBuy) : Order :=
  { inst := p.inst, side := Side.buy, qty := p.qty, price := p.price, reduceOnly := false }

/-- Full strategy state of PairRatioStrategy: the six OHLC caches, the
ledger dataframe in insertion order, the two swing indicators, the single
pending-buy slot, the dedupe marker, the daily fills log, the allocation
type last set by the sizing routine, and the configured target ratio and
threshold. -/
structure StratState where
  cacheAS : Option Bar4
  cacheBS : Option Bar4
  cacheRatioS : Option Bar4
  cacheAL : Option Bar4
  cacheBL : Option Bar4
  cacheRatioL : Option Bar4
  history : List Row
  swingS : SwingState
  swingL : SwingState
  pendingBuy : Option PendingBuy
  lastActed : Option (Option ℤ × Dir)
  dailyFills : List (ℤ × DayRecord)
  currentAllocType : Option String
  ratioH : ℚ
  thresh : ℚ
deriving DecidableEq, Repr

/-- The freshly constructed strategy state. -/
def initState (r l : ℕ) (ratioH thresh : ℚ) : StratState :=
  { cacheAS := none, cacheBS := none, cacheRatioS := none,
    cacheAL := none, cacheBL := none, cacheRatioL := none,
    history := [], swingS := swingInit r l, swingL := swingInit r l,
    pendingBuy := none, lastActed := none, dailyFills := [],
    currentAllocType := none, ratioH := ratioH, thresh := thresh }

/-- Set the allocation type, apply the deferred buys to the pending slot
and return the submitted orders: the state effect of one
_calc_submit_orders call with explicit ratio and threshold. -/
def runCalcWith (s : StratState) (aH aL : AssetInfo) (total rh th : ℚ)
    (alloc : String) : StratState × List Order :=
  let r := calcSubmitOrders aH aL total rh th
  ({ s with currentAllocType := some alloc,
            pendingBuy := applyDeferred s.pendingBuy r.deferred }, r.orders)

/-- _calc_submit_orders as invoked by the strategy, with the configured
ratio and threshold. -/
def runCalc (s : StratState) (aH aL : AssetInfo) (total : ℚ)
    (alloc : String) : StratState × List Order :=
  runCalcWith s aH aL total s.ratioH s.thresh alloc

/-- Mark-to-market value of one leg: qty * price when the quantity is
positive, else zero. -/
def heldVal (qty price : ℚ) : ℚ := if 0 < qty then qty * price else 0

/-- is_diff of on_bar lifted to a whole OHLC quadruple: both missing means
no difference, presence/absence differs, and present values compare
numerically field by field. -/
def quadDiff : Option Bar4 → Option Bar4 → Bool
  | none, none => false
  | some a, some b => decide (a ≠ b)
  | _, _ => true

/-- Whether any long-timeframe cached OHLC value differs from the values
stored in a ledger row (the any(is_diff ...) test of on_bar). -/
def longDiff (s : StratState) (r : Row) : Bool :=
  quadDiff s.cacheAL r.aL || quadDiff s.cacheBL r.bL || quadDiff s.cacheRatioL r.ratioL

/-- The same long-timeframe difference test between two stored rows. -/
def longRowDiff (r2 r1 : Row) : Bool :=
  quadDiff r2.aL r1.aL || quadDiff r2.bL r1.bL || quadDiff r2.ratioL r1.ratioL

/-- Strict timestamp order between ledger rows. -/
def tsLt (r1 r2 : Row) : Prop := r1.ts < r2.ts

/-- Adjacent-row ledger invariant: timestamps strictly increase and the
epoch of the later row is the epoch of the earlier row plus one exactly
when the long-timeframe values stored in the two rows differ. -/
def epochStep (r1 r2 : Row) : Prop :=
  r1.ts < r2.ts ∧
  r2.lIndex = (if longRowDiff r2 r1 then r1.lIndex + 1 else r1.lIndex)

/-- Weak ledger order: later timestamp, no smaller epoch. -/
def epochLe (r1 r2 : Row) : Prop := r1.ts < r2.ts ∧ r1.lIndex ≤ r2.lIndex

instance : IsTrans Row tsLt :=
  ⟨fun _ _ _ h1 h2 => lt_trans h1 h2⟩

instance : IsTrans Row epochLe :=
  ⟨fun _ _ _ h1 h2 => ⟨lt_trans h1.1 h2.1, le_trans h1.2 h2.2⟩⟩

/-- Rows carrying at least one long-timeframe swing value, with any row at
the given timestamp dropped (dropna(how=all) on the two swing columns
followed by drop(ts)). -/
def swingLRows (hist : List Row) (ts : ℤ) : List Row :=
  (hist.filter (fun r => ¬ (r.swingLHigh = none ∧ r.swingLLow = none))).filter
    (fun r => r.ts ≠ ts)

/-- The previous confirmed swing row: the last remaining swing row. -/
def preSwing (hist : List Row) (ts : ℤ) : Option Row :=
  (swingLRows hist ts).getLast?

/-- The reference row used to compute l_index for the bar at the given
timestamp: the last row when strictly older, the row before the last when
the last shares the timestamp, and otherwise the last row older than the
timestamp (out-of-order arrival). -/
def lastRowFor (hist : List Row) (ts : ℤ) : Option Row :=
  match hist.getLast? with
  | none => none
  | some lastR =>
    if lastR.ts < ts then some lastR
    else if lastR.ts = ts then hist.dropLast.getLast?
    else (hist.filter (fun r => r.ts < ts)).getLast?

/-- l_index of the new row: previous epoch plus one when any
long-timeframe value changed, else copied; zero with no reference row. -/
def newLIndex (s : StratState) (ts : ℤ) : ℤ :=
  match lastRowFor s.history ts with
  | none => 0
  | some r => if longDiff s r then r.lIndex + 1 else r.lIndex

/-- The row written for the current timestamp from the caches and the
current indicator outputs. -/
def mkRow (s : StratState) (ts lIndex : ℤ) : Row :=
  { ts := ts, lIndex := lIndex,
    aS := s.cacheAS, bS := s.cacheBS, ratioS := s.cacheRatioS,
    aL := s.cacheAL, bL := s.cacheBL, ratioL := s.cacheRatioL,
    swingSLow := s.swingS.pivotLow, swingSHigh := s.swingS.pivotHigh,
    swingLLow := s.swingL.pivotLow, swingLHigh := s.swingL.pivotHigh }

/-- Upsert of the ledger: update every row with this timestamp in place,
or append the new row at the end (pd.concat appends in insertion order). -/
def upsertHist (hist : List Row) (row : Row) : List Row :=
  if hist.any (fun r => decide (r.ts = row.ts)) then
    hist.map (fun r => if r.ts = row.ts then row else r)
  else hist ++ [row]

/-- Indicator and cache updates for one bar: the engine updates the
indicators registered for the bar type before the strategy callback runs,
then on_bar routes the OHLC values into the matching cache slot. -/
def cacheStep (s : StratState) (bar : InBar) : StratState :=
  let s1 :=
    match bar.stream with
    | StreamId.ratioS => { s with swingS := s.swingS.handleBar bar }
    | StreamId.ratioL => { s with swingL := s.swingL.handleBar bar }
    | _ => s
  let quad : Bar4 := { o := bar.o, h := bar.h, l := bar.l, c := bar.c }
  match bar.stream with
  | StreamId.aS => { s1 with cacheAS := some quad }
  | StreamId.bS => { s1 with cacheBS := some quad }
  | StreamId.ratioS => { s1 with cacheRatioS := some quad }
  | StreamId.aL => { s1 with cacheAL := some quad }
  | StreamId.bL => { s1 with cacheBL := some quad }
  | StreamId.ratioL => { s1 with cacheRatioL := some quad }

/-- The ledger part of on_bar: cache updates followed by the l_index
computation and the upsert of the row for the current timestamp. -/
def ledgerStep (s : StratState) (bar : InBar) : StratState :=
  let s1 := cacheStep s bar
  { s1 with history := upsertHist s1.history (mkRow s1 bar.ts (newLIndex s1 bar.ts)) }

/-- _bos_allocation: structural-breakout reaction on a short-timeframe
ratio bar, gated by the dedupe marker keyed on the previous-swing
timestamp and the direction. -/
def bosAlloc (s : StratState) (latest : Row) (preLow preHigh : Option ℚ)
    (preTs : Option ℤ) (priceA qtyA priceB qtyB total : ℚ) :
    StratState × List Order :=
  let condLow : Bool :=
    match latest.ratioS, preLow with
    | some q, some v => decide (q.l < v)
    | _, _ => false
  let condHigh : Bool :=
    match latest.ratioS, preHigh with
    | some q, some w => decide (w < q.h)
    | _, _ => false
  if condLow then
    if s.lastActed ≠ some (preTs, Dir.low) then
      let r := runCalc s (AssetInfo.mk Inst.B priceB qtyB)
        (AssetInfo.mk Inst.A priceA qtyA) total "BOS"
      ({ r.1 with lastActed := some (preTs, Dir.low) }, r.2)
    else (s, [])
  else if condHigh then
    if s.lastActed ≠ some (preTs, Dir.high) then
      let r := runCalc s (AssetInfo.mk Inst.A priceA qtyA)
        (AssetInfo.mk Inst.B priceB qtyB) total "BOS"
      ({ r.1 with lastActed := some (preTs, Dir.high) }, r.2)
    else (s, [])
  else (s, [])

/-- _normal_allocation: rebalance on a long-timeframe ratio bar whose row
carries a freshly confirmed swing value, provided earlier confirmed swing
rows exist; a confirmed low favors asset A, a confirmed high asset B. -/
def normalAlloc (s : StratState) (lsl lsh : Option ℚ) (swingRows : List Row)
    (priceA qtyA priceB qtyB total : ℚ) : StratState × List Order :=
  if lsl = none ∧ lsh = none then (s, [])
  else if lsl ≠ none ∧ swingRows ≠ [] then
    runCalc s (AssetInfo.mk Inst.A priceA qtyA)
      (AssetInfo.mk Inst.B priceB qtyB) total "Normal"
  else if lsh ≠ none ∧ swingRows ≠ [] then
    runCalc s (AssetInfo.mk Inst.B priceB qtyB)
      (AssetInfo.mk Inst.A priceA qtyA) total "Normal"
  else (s, [])

/-- The decision part of on_bar, running on the state after the ledger
update: return early without prices; bootstrap when total invested equity
is exactly zero on a long ratio bar; otherwise return unless a truthy
previous swing exists, then run the structural-breakout check on short
ratio bars and the normal allocation on long ratio bars. -/
def signalStep (acct : AccountView) (s : StratState) (bar : InBar) :
    StratState × List Order :=
  if s.cacheAS = none ∨ s.cacheBS = none then (s, [])
  else
    let priceA := (s.cacheAS.map Bar4.c).getD 0
    let priceB := (s.cacheBS.map Bar4.c).getD 0
    let valA := heldVal acct.qtyA priceA
    let valB := heldVal acct.qtyB priceB
    let totalPosition := acct.cash + valA + valB
    let totalEquity := valA + valB
    let swingRows := swingLRows s.history bar.ts
    let pre := swingRows.getLast?
    let preLow : Option ℚ := match pre with | some r => r.swingLLow | none => none
    let preHigh : Option ℚ := match pre with | some r => r.swingLHigh | none => none
    let preTs : Option ℤ := pre.map Row.ts
    match s.history.getLast? with
    | none => (s, [])
    | some latest =>
      if totalEquity = 0 ∧ bar.stream = StreamId.ratioL ∧ s.history ≠ [] then
        if latest.swingLLow = none ∧ latest.swingLHigh = none then (s, [])
        else if latest.swingLLow ≠ none then
          runCalc s (AssetInfo.mk Inst.A priceA acct.qtyA)
            (AssetInfo.mk Inst.B priceB acct.qtyB) totalPosition "Normal"
        else
          runCalc s (AssetInfo.mk Inst.B priceB acct.qtyB)
            (AssetInfo.mk Inst.A priceA acct.qtyA) totalPosition "Normal"
      else if ¬ pyTruthy preHigh ∧ ¬ pyTruthy preLow then (s, [])
      else
        let bosRes :=
          if bar.stream = StreamId.ratioS ∧ (pyTruthy preLow ∨ pyTruthy preHigh) then
            bosAlloc s latest preLow preHigh preTs priceA acct.qtyA priceB acct.qtyB totalPosition
          else (s, [])
        let normRes :=
          if bar.stream = StreamId.ratioL ∧ s.history ≠ [] then
            normalAlloc bosRes.1 latest.swingLLow latest.swingLHigh swingRows
              priceA acct.qtyA priceB acct.qtyB totalPosition
          else (bosRes.1, [])
        (normRes.1, bosRes.2 ++ normRes.2)

/-- PairRatioStrategy.on_bar: ledger update followed by the decision part.
The account view stands for the external portfolio/cash queries. -/
def onBar (acct : AccountView) (s : StratState) (bar : InBar) :
    StratState × List Order :=
  signalStep acct (ledgerStep s bar) bar

/-- Feed a list of bars through on_bar, concatenating submitted orders. -/
def runBars (acct : AccountView) (s : StratState) : List InBar → StratState × List Order
  | [] => (s, [])
  | b :: bs =>
    let r := onBar acct s b
    let rest := runBars acct r.1 bs
    (rest.1, r.2 ++ rest.2)

/-- Calendar-day key of a nanosecond timestamp (UTC date). -/
def dateKey (ts : ℤ) : ℤ := ts.fdiv 86400000000000

/-- Lookup of a daily record by date key. -/
def lookupDay (log : List (ℤ × DayRecord)) (dk : ℤ) : Option DayRecord :=
  match log.find? (fun e => decide (e.1 = dk)) with
  | some e => some e.2
  | none => none

/-- Replace the record stored under a date key, keeping insertion order. -/
def updateDay (log : List (ℤ × DayRecord)) (dk : ℤ) (rec : DayRecord) :
    List (ℤ × DayRecord) :=
  log.map (fun e => if e.1 = dk then (dk, rec) else e)

/-- PairRatioStrategy.record_fill: get or create the record of the
calendar day of the fill (carrying forward the previous total position),
fold the fill quantity and notional into the per-instrument columns with
a running volume-weighted average price, and snapshot the post-fill
portfolio state. -/
def recordFill (acct : AccountView) (s : StratState) (ev : FillEvent) : StratState :=
  let dk := dateKey ev.ts
  let createRes :=
    match lookupDay s.dailyFills dk with
    | some r => (s.dailyFills, r)
    | none =>
      let prevP :=
        match s.dailyFills.getLast? with
        | some e => e.2.totalPosition
        | none => 0
      let r : DayRecord :=
        { date := dk, allocType := s.currentAllocType,
          orderSideA := none, fillQtyA := 0, fillPriceA := 0, fillValueA := 0,
          orderSideB := none, fillQtyB := 0, fillPriceB := 0, fillValueB := 0,
          positionA := 0, positionB := 0, availableCash := 0,
          totalPosition := 0, posChange := 0, prevTotalP := prevP }
      (s.dailyFills ++ [(dk, r)], r)
  let log1 := createRes.1
  let rec0 := createRes.2
  let fillVal := ev.qty * ev.px
  let sideStr : String := match ev.side with | Side.buy => "B" | Side.sell => "S"
  let rec1 :=
    match ev.inst with
    | Inst.A =>
      let q := pyRound2 (rec0.fillQtyA + ev.qty)
      let v := pyRound2 (rec0.fillValueA + fillVal)
      { rec0 with orderSideA := some sideStr, fillQtyA := q, fillValueA := v,
                  fillPriceA := if 0 < q then pyRound2 (v / q) else rec0.fillPriceA }
    | Inst.B =>
      let q := pyRound2 (rec0.fillQtyB + ev.qty)
      let v := pyRound2 (rec0.fillValueB + fillVal)
      { rec0 with orderSideB := some sideStr, fillQtyB := q, fillValueB := v,
                  fillPriceB := if 0 < q then pyRound2 (v / q) else rec0.fillPriceB }
  let pxA := (s.cacheAS.map Bar4.c).getD 0
  let pxB := (s.cacheBS.map Bar4.c).getD 0
  let totalP := acct.cash + acct.qtyA * pxA + acct.qtyB * pxB
  let rec2 :=
    { rec1 with positionA := pyRound2 acct.qtyA, positionB := pyRound2 acct.qtyB,
                availableCash := pyRound2 acct.cash, totalPosition := pyRound2 totalP,
                posChange :=
                  if rec1.prevTotalP ≠ 0 then
                    pyRound2 ((totalP - rec1.prevTotalP) / rec1.prevTotalP * 100)
                  else 0 }
  { s with dailyFills := updateDay log1 dk rec2 }

/-- PairRatioStrategy.on_order_filled: record the fill, then release the
stored pending buy exactly when the fill side is SELL and the slot is
occupied, clearing the slot. -/
def onOrderFilled (acct : AccountView) (s : StratState) (ev : FillEvent) :
    StratState × List Order :=
  let s1 := recordFill acct s ev
  match s1.pendingBuy, ev.side with
  | some p, Side.sell => ({ s1 with pendingBuy := none }, [pendingToOrder p])
  | _, _ => (s1, [])

/-- PairRatioStrategy.on_order_rejected: the handler only logs the event
and changes nothing. -/
def onOrderRejected (s : StratState) (inst : Inst) (reason : String) : StratState := s

/-- PairRatioStrategy.on_order_denied: the handler only logs the event
and changes nothing. -/
def onOrderDenied (s : StratState) (inst : Inst) (reason : String) : StratState := s

/-- An event delivered to the sequencing state machine: a rebalance
computation with its inputs, a fill, or an execution failure. -/
inductive TraceEvent where
  | calc (aH aL : AssetInfo) (total rh th : ℚ) (alloc : String)
  | fill (acct : AccountView) (ev : FillEvent)
  | reject (inst : Inst) (reason : String)
  | deny (inst : Inst) (reason : String)
deriving DecidableEq, Repr

/-- One step of the event machine. -/
def stepEvent (s : StratState) (e : TraceEvent) : StratState × List Order :=
  match e with
  | TraceEvent.calc aH aL total rh th alloc => runCalcWith s aH aL total rh th alloc
  | TraceEvent.fill acct ev => onOrderFilled acct s ev
  | TraceEvent.reject i r => (onOrderRejected s i r, [])
  | TraceEvent.deny i r => (onOrderDenied s i r, [])

/-- Run a list of events, concatenating all submitted orders. -/
def runEvents (s : StratState) : List TraceEvent → StratState × List Order
  | [] => (s, [])
  | e :: evs =>
    let r := stepEvent s e
    let rest := runEvents r.1 evs
    (rest.1, r.2 ++ rest.2)

/-- A rebalance-computation event whose sizing produces a sell leg (any
non-calc event passes vacuously). -/
def calcProducesSell : TraceEvent → Prop
  | TraceEvent.calc aH aL total rh _ _ =>
    0 < qtyToSellL aL total rh ∨ qtyToBuyH aH total rh < 0
  | _ => True

/-- A SELL-side fill event. -/
def isSellFill : TraceEvent → Prop
  | TraceEvent.fill _ ev => ev.side = Side.sell
  | _ => False

/-- The inputs of one _bos_allocation invocation. -/
structure BosInput where
  latest : Row
  preLow : Option ℚ
  preHigh : Option ℚ
  preTs : Option ℤ
  priceA : ℚ
  qtyA : ℚ
  priceB : ℚ
  qtyB : ℚ
  total : ℚ
deriving DecidableEq, Repr

/-- One _bos_allocation invocation from a BosInput. -/
def bosStep (s : StratState) (i : BosInput) : StratState × List Order :=
  bosAlloc s i.latest i.preLow i.preHigh i.preTs i.priceA i.qtyA i.priceB i.qtyB i.total

/-- Run a sequence of _bos_allocation invocations, counting the reactions
(steps on which the dedupe marker moved, i.e. an order cycle fired). -/
def bosRunCount (s : StratState) : List BosInput → StratState × ℕ
  | [] => (s, 0)
  | i :: rest =>
    let r := bosStep s i
    let rr := bosRunCount r.1 rest
    (rr.1, (if r.1.lastActed ≠ s.lastActed then 1 else 0) + rr.2)

/-- The low-side structural-breakout condition of _bos_allocation: a
previous swing low exists and the short-timeframe ratio low undercuts it. -/
def bosCondLow (i : BosInput) : Prop :=
  ∃ q v, i.latest.ratioS = some q ∧ i.preLow = some v ∧ q.l < v

/-- The high-side condition, reached only when the low side fails: a
previous swing high exists and the short-timeframe ratio high exceeds it. -/
def bosCondHigh (i : BosInput) : Prop :=
  ∃ q w, i.latest.ratioS = some q ∧ i.preHigh = some w ∧ w < q.h

/-- A bar input qualifying for the same structural breakout: same
previous-swing timestamp, same direction. -/
def Qualifies : Dir → Option ℤ → BosInput → Prop
  | Dir.low, pt, i => i.preTs = pt ∧ bosCondLow i
  | Dir.high, pt, i => i.preTs = pt ∧ ¬ bosCondLow i ∧ bosCondHigh i

/-- A long-timeframe ratio bar with the given timestamp, high and low. -/
def mkRBar (ts : ℤ) (hi lo : ℚ) : InBar :=
  { stream := StreamId.ratioL, ts := ts, o := lo, h := hi, l := lo, c := lo }

/-- Account view used by the concrete runs: one unit of A, no B, 100 cash. -/
def acctW : AccountView := { qtyA := 1, qtyB := 0, cash := 100 }

/-- A ledger row with the given timestamp, epoch and cache snapshots and
no swing values. -/
def mkPlainRow (ts lIndex : ℤ) (aS bS ratioL : Option Bar4) : Row :=
  { ts := ts, lIndex := lIndex, aS := aS, bS := bS, ratioS := none,
    aL := none, bL := none, ratioL := ratioL,
    swingSLow := none, swingSHigh := none, swingLLow := none, swingLHigh := none }

/-- Cached quadruple of asset A at price 10. -/
def quadA : Bar4 := { o := 10, h := 10, l := 10, c := 10 }

/-- Cached quadruple of asset B at price 20. -/
def quadB : Bar4 := { o := 20, h := 20, l := 20, c := 20 }

/-- The strategy state reached after an asset-A bar (price 10), an
asset-B bar (price 20) and the ratio-long bars with lows 5, 1: both
prices known, no confirmed swing anywhere, and the long swing detector
one bar away from confirming a pivot low. -/
def cexState : StratState :=
  { cacheAS := some quadA, cacheBS := some quadB, cacheRatioS := none,
    cacheAL := none, cacheBL := none,
    cacheRatioL := some (Bar4.mk 1 10 1 1),
    history :=
      [ mkPlainRow 1 0 (some quadA) none none,
        mkPlainRow 2 0 (some quadA) (some quadB) none,
        mkPlainRow 3 1 (some quadA) (some quadB) (some (Bar4.mk 5 10 5 5)),
        mkPlainRow 4 2 (some quadA) (some quadB) (some (Bar4.mk 1 10 1 1)) ],
    swingS := swingInit 1 1,
    swingL :=
      { sizeR := 1, sizeL := 1, highs := [10, 10], lows := [5, 1],
        bars := [mkRBar 3 10 5, mkRBar 4 10 1],
        pivotHigh := none, pivotLow := none,
        pivotHighHistory := [], pivotLowHistory := [] },
    pendingBuy := none, lastActed := none, dailyFills := [],
    currentAllocType := none, ratioH := 9/10, thresh := 1/50 }

/-- The ratio-long bar with low 5 completing the window 5, 1, 5: it
confirms the pivot low 1. -/
def cexBar : InBar := mkRBar 5 10 5

/-- The state reached three ratio-long bars later (lows 5, 4, 0): the row
at timestamp 5 carries the confirmed swing low 1, and the detector is one
bar away from confirming a second pivot low. -/
def wState : StratState :=
  { cacheAS := some quadA, cacheBS := some quadB, cacheRatioS := none,
    cacheAL := none, cacheBL := none,
    cacheRatioL := some (Bar4.mk 0 10 0 0),
    history :=
      [ mkPlainRow 1 0 (some quadA) none none,
        mkPlainRow 2 0 (some quadA) (some quadB) none,
        mkPlainRow 3 1 (some quadA) (some quadB) (some (Bar4.mk 5 10 5 5)),
        mkPlainRow 4 2 (some quadA) (some quadB) (some (Bar4.mk 1 10 1 1)),
        { mkPlainRow 5 3 (some quadA) (some quadB) (some (Bar4.mk 5 10 5 5)) with
            swingLLow := some 1 },
        mkPlainRow 6 4 (some quadA) (some quadB) (some (Bar4.mk 4 10 4 4)),
        mkPlainRow 7 5 (some quadA) (some quadB) (some (Bar4.mk 0 10 0 0)) ],
    swingS := swingInit 1 1,
    swingL :=
      { sizeR := 1, sizeL := 1, highs := [10, 10, 10], lows := [5, 4, 0],
        bars := [mkRBar 5 10 5, mkRBar 6 10 4, mkRBar 7 10 0],
        pivotHigh := none, pivotLow := none,
        pivotHighHistory := [], pivotLowHistory := [mkRBar 4 10 1] },
    pendingBuy := none, lastActed := none, dailyFills := [],
    currentAllocType := none, ratioH := 9/10, thresh := 1/50 }

/-- The ratio-long bar with low 1 completing the window 4, 0, 1: it
confirms the pivot low 0. -/
def wBar : InBar := mkRBar 8 10 1

/-- Three ratio-long bars arriving out of timestamp order (1, 3, then 2),
the last with changed long-timeframe values. -/
def oooBars : List InBar :=
  [ mkRBar 1 5 5, mkRBar 3 5 5, mkRBar 2 6 6 ]

/-- Ledger after the out-of-order bars. -/
def oooHist : List Row :=
  (runBars acctW (initState 1 1 (9/10) (1/50)) oooBars).1.history

/-- Two in-order bars: a ratio-long bar then a short asset bar at a new
timestamp (so the second row copies the epoch). -/
def updBars2 : List InBar :=
  [ mkRBar 1 5 5, { stream := StreamId.aS, ts := 2, o := 10, h := 10, l := 10, c := 10 } ]

/-- State after the two bars. -/
def updState2 : StratState :=
  (runBars acctW (initState 1 1 (9/10) (1/50)) updBars2).1

/-- A ratio-long bar at the existing timestamp 2 with changed values: the
upsert updates the second row in place. -/
def updBar3 : InBar := mkRBar 2 6 6

/-- Concrete bar list for the pivot-uniqueness witness (the spec scenario
with window L = 2, R = 2 and highs 10, 20, 50, 20, 10). -/
def c2Bars : List InBar :=
  [ mkRBar 1 10 5, mkRBar 2 20 5, mkRBar 3 50 5, mkRBar 4 20 5, mkRBar 5 10 5 ]

/-- Concrete event list for the sequencing witness: a computation that
sells 1800 low-weight units and defers a 900-unit buy, followed by a
BUY-side fill. -/
def c4Events : List TraceEvent :=
  [ TraceEvent.calc (AssetInfo.mk Inst.A 100 0) (AssetInfo.mk Inst.B 50 2000)
      100000 (9/10) (1/50) "Normal",
    TraceEvent.fill acctW (FillEvent.mk Inst.B Side.buy 1 50 0) ]

/-- A ledger row whose short-timeframe ratio low (1) undercuts the
previous swing low used by the breakout witness. -/
def c5Row : Row :=
  { ts := 500, lIndex := 0, aS := none, bS := none,
    ratioS := some (Bar4.mk 1 1 1 1), aL := none, bL := none, ratioL := none,
    swingSLow := none, swingSHigh := none, swingLLow := none, swingLHigh := none }

/-- A qualifying low-direction breakout input (previous swing low 2 at
timestamp 100, ratio low 1). -/
def c5Input : BosInput :=
  { latest := c5Row, preLow := some 2, preHigh := none, preTs := some 100,
    priceA := 10, qtyA := 1, priceB := 20, qtyB := 0, total := 110 }

theorem lastN_nil (n : ℕ) : lastN n ([] : List α) = [] := by
  simp [lastN]

theorem lastN_length (n : ℕ) (xs : List α) :
    (lastN n xs).length = min n xs.length := by
  simp only [lastN, List.length_drop]; omega

theorem lastN_append (n : ℕ) (hn : 1 ≤ n) (ys : List α) (x : α) :
    lastN n (lastN n ys ++ [x]) = lastN n (ys ++ [x]) := by
  unfold lastN
  rcases le_or_lt ys.length n with h | h
  · rw [Nat.sub_eq_zero_of_le h]
    simp only [List.drop_zero]
  · have h1 : (ys.drop (ys.length - n) ++ [x]).length - n = 1 := by
      simp only [List.length_append, List.length_drop, List.length_cons,
        List.length_nil]
      omega
    have h2 : (ys ++ [x]).length - n = ys.length - n + 1 := by
      simp only [List.length_append, List.length_cons, List.length_nil]
      omega
    rw [h1, h2]
    have h3 : (1 : ℕ) ≤ (ys.drop (ys.length - n)).length := by
      simp only [List.length_drop]; omega
    have h4 : ys.length - n + 1 ≤ ys.length := by omega
    rw [List.drop_append_of_le_length h3, List.drop_drop,
      List.drop_append_of_le_length h4]

theorem foldl_max_init_le (a : ℚ) (xs : List ℚ) : a ≤ xs.foldl max a := by
  induction xs generalizing a with
  | nil => simp
  | cons x xs ih =>
    exact le_trans (le_max_left a x) (ih (max a x))

theorem le_foldl_max (a b : ℚ) (xs : List ℚ) (h : b ∈ xs) :
    b ≤ xs.foldl max a := by
  induction xs generalizing a with
  | nil => cases h
  | cons x xs ih =>
    rcases List.mem_cons.mp h with rfl | h2
    · exact le_trans (le_max_right a b) (foldl_max_init_le _ _)
    · exact ih _ h2

theorem foldl_max_choice (a : ℚ) (xs : List ℚ) :
    xs.foldl max a = a ∨ xs.foldl max a ∈ xs := by
  induction xs generalizing a with
  | nil => left; rfl
  | cons x xs ih =>
    rcases ih (max a x) with h | h
    · simp only [List.foldl_cons, h]
      rcases max_choice a x with h2 | h2
      · left; exact h2
      · right; rw [h2]; exact List.mem_cons_self _ _
    · right; exact List.mem_cons_of_mem _ h

theorem foldl_min_init_le (a : ℚ) (xs : List ℚ) : xs.foldl min a ≤ a := by
  induction xs generalizing a with
  | nil => simp
  | cons x xs ih =>
    exact le_trans (ih (min a x)) (min_le_left a x)

theorem foldl_min_le (a b : ℚ) (xs : List ℚ) (h : b ∈ xs) :
    xs.foldl min a ≤ b := by
  induction xs generalizing a with
  | nil => cases h
  | cons x xs ih =>
    rcases List.mem_cons.mp h with rfl | h2
    · exact le_trans (foldl_min_init_le (min a b) xs) (min_le_right a b)
    · exact ih _ h2

theorem foldl_min_choice (a : ℚ) (xs : List ℚ) :
    xs.foldl min a = a ∨ xs.foldl min a ∈ xs := by
  induction xs generalizing a with
  | nil => left; rfl
  | cons x xs ih =>
    rcases ih (min a x) with h | h
    · simp only [List.foldl_cons, h]
      rcases min_choice a x with h2 | h2
      · left; exact h2
      · right; rw [h2]; exact List.mem_cons_self _ _
    · right; exact List.mem_cons_of_mem _ h

theorem listMax_mem (xs : List ℚ) (h : xs ≠ []) : listMax xs ∈ xs := by
  match xs with
  | [] => exact absurd rfl h
  | x :: xs =>
    rcases foldl_max_choice x xs with h2 | h2
    · rw [listMax, h2]; exact List.mem_cons_self _ _
    · exact List.mem_cons_of_mem _ h2

theorem le_listMax (xs : List ℚ) (b : ℚ) (h : b ∈ xs) : b ≤ listMax xs := by
  match xs with
  | [] => cases h
  | x :: xs =>
    rcases List.mem_cons.mp h with rfl | h2
    · exact foldl_max_init_le _ _
    · exact le_foldl_max _ _ _ h2

theorem listMin_mem (xs : List ℚ) (h : xs ≠ []) : listMin xs ∈ xs := by
  match xs with
  | [] => exact absurd rfl h
  | x :: xs =>
    rcases foldl_min_choice x xs with h2 | h2
    · rw [listMin, h2]; exact List.mem_cons_self _ _
    · exact List.mem_cons_of_mem _ h2

theorem listMin_le (xs : List ℚ) (b : ℚ) (h : b ∈ xs) : listMin xs ≤ b := by
  match xs with
  | [] => cases h
  | x :: xs =>
    rcases List.mem_cons.mp h with rfl | h2
    · exact foldl_min_init_le _ _
    · exact foldl_min_le _ _ _ h2

theorem listMax_eq_listMin_of_flat (xs : List ℚ) (c : ℚ) (hne : xs ≠ [])
    (h : ∀ x ∈ xs, x = c) : listMax xs = c ∧ listMin xs = c :=
  ⟨h _ (listMax_mem xs hne), h _ (listMin_mem xs hne)⟩

theorem handleBar_sizeR (s : SwingState) (b : InBar) :
    (s.handleBar b).sizeR = s.sizeR := by
  simp only [SwingState.handleBar]; split <;> rfl

theorem handleBar_sizeL (s : SwingState) (b : InBar) :
    (s.handleBar b).sizeL = s.sizeL := by
  simp only [SwingState.handleBar]; split <;> rfl

theorem handleBar_windowSize (s : SwingState) (b : InBar) :
    (s.handleBar b).windowSize = s.windowSize := by
  simp only [SwingState.windowSize, handleBar_sizeR, handleBar_sizeL]

theorem handleBar_highs (s : SwingState) (b : InBar) :
    (s.handleBar b).highs = lastN s.windowSize (s.highs ++ [b.h]) := by
  simp only [SwingState.handleBar]; split <;> rfl

theorem handleBar_lows (s : SwingState) (b : InBar) :
    (s.handleBar b).lows = lastN s.windowSize (s.lows ++ [b.l]) := by
  simp only [SwingState.handleBar]; split <;> rfl

theorem handleBar_bars (s : SwingState) (b : InBar) :
    (s.handleBar b).bars = lastN s.windowSize (s.bars ++ [b]) := by
  simp only [SwingState.handleBar]; split <;> rfl

theorem runSwing_append (s : SwingState) (p : List InBar) (b : InBar) :
    runSwing s (p ++ [b]) = (runSwing s p).handleBar b := by
  simp [runSwing, List.foldl_append]

theorem runSwing_sizeR (s : SwingState) (p : List InBar) :
    (runSwing s p).sizeR = s.sizeR := by
  induction p using List.reverseRecOn with
  | nil => rfl
  | append_singleton p b ih => rw [runSwing_append, handleBar_sizeR, ih]

theorem runSwing_sizeL (s : SwingState) (p : List InBar) :
    (runSwing s p).sizeL = s.sizeL := by
  induction p using List.reverseRecOn with
  | nil => rfl
  | append_singleton p b ih => rw [runSwing_append, handleBar_sizeL, ih]

theorem runSwing_windowSize (r l : ℕ) (p : List InBar) :
    (runSwing (swingInit r l) p).windowSize = l + r + 1 := by
  simp [SwingState.windowSize, runSwing_sizeR, runSwing_sizeL, swingInit]

theorem runSwing_highs (r l : ℕ) (p : List InBar) :
    (runSwing (swingInit r l) p).highs = lastN (l + r + 1) (p.map InBar.h) := by
  induction p using List.reverseRecOn with
  | nil => simp [runSwing, swingInit, lastN_nil]
  | append_singleton p b ih =>
    rw [runSwing_append, handleBar_highs, runSwing_windowSize, ih, List.map_append]
    exact lastN_append _ (by omega) _ _

theorem runSwing_lows (r l : ℕ) (p : List InBar) :
    (runSwing (swingInit r l) p).lows = lastN (l + r + 1) (p.map InBar.l) := by
  induction p using List.reverseRecOn with
  | nil => simp [runSwing, swingInit, lastN_nil]
  | append_singleton p b ih =>
    rw [runSwing_append, handleBar_lows, runSwing_windowSize, ih, List.map_append]
    exact lastN_append _ (by omega) _ _

theorem runSwing_bars (r l : ℕ) (p : List InBar) :
    (runSwing (swingInit r l) p).bars = lastN (l + r + 1) p := by
  induction p using List.reverseRecOn with
  | nil => simp [runSwing, swingInit, lastN_nil]
  | append_singleton p b ih =>
    rw [runSwing_append, handleBar_bars, runSwing_windowSize, ih]
    exact lastN_append _ (by omega) _ _

theorem runSwing_warmup (r l : ℕ) (p : List InBar) (hp : p.length < l + r + 1) :
    (runSwing (swingInit r l) p).pivotHigh = none ∧
    (runSwing (swingInit r l) p).pivotLow = none ∧
    (runSwing (swingInit r l) p).pivotHighHistory = [] ∧
    (runSwing (swingInit r l) p).pivotLowHistory = [] := by
  induction p using List.reverseRecOn with
  | nil => exact ⟨rfl, rfl, rfl, rfl⟩
  | append_singleton p b ih =>
    rw [runSwing_append]
    have hlen : p.length < l + r + 1 := by
      simp only [List.length_append, List.length_cons, List.length_nil] at hp
      omega
    obtain ⟨h1, h2, h3, h4⟩ := ih hlen
    have hws : (runSwing (swingInit r l) p).windowSize = l + r + 1 :=
      runSwing_windowSize r l p
    have hp1 : p.length + 1 < l + r + 1 := by
      simp only [List.length_append, List.length_cons, List.length_nil] at hp
      omega
    have hcond :
        (lastN (runSwing (swingInit r l) p).windowSize
          ((runSwing (swingInit r l) p).highs ++ [b.h])).length <
          (runSwing (swingInit r l) p).windowSize := by
      rw [lastN_length, hws, runSwing_highs, List.length_append, lastN_length]
      simp only [List.length_map, List.length_cons, List.length_nil]
      omega
    simp only [SwingState.handleBar, hcond, if_true, if_pos hcond]
    exact ⟨trivial, trivial, h3, h4⟩

theorem lastN_getD (n i : ℕ) (xs : List α) (d : α) :
    (lastN n xs).getD i d = xs.getD (xs.length - n + i) d := by
  simp only [lastN, List.getD_eq_getElem?_getD, List.getElem?_drop]

theorem getD_map_h (p : List InBar) (j : ℕ) (hj : j < p.length) (d : ℚ) (db : InBar) :
    (p.map InBar.h).getD j d = (p.getD j db).h := by
  simp [List.getD_eq_getElem?_getD, List.getElem?_map, List.getElem?_eq_getElem hj]

theorem getD_take (p : List InBar) (m j : ℕ) (hj : j < m) (d : InBar) :
    (p.take m).getD j d = p.getD j d := by
  simp only [List.getD_eq_getElem?_getD, List.getElem?_take, if_pos hj]

theorem lastN_mem_getD (n : ℕ) (xs : List ℚ) (x : ℚ) (h : x ∈ lastN n xs) :
    ∃ j, xs.length - n ≤ j ∧ j < xs.length ∧ xs.getD j 0 = x := by
  obtain ⟨i, hi, hget⟩ := List.mem_iff_getElem.mp h
  refine ⟨xs.length - n + i, by omega, ?_, ?_⟩
  · have := hi
    rw [lastN_length] at this
    omega
  · have h2 : (lastN n xs)[i]? = some x := by
      rw [List.getElem?_eq_getElem hi, hget]
    rw [lastN, List.getElem?_drop] at h2
    rw [List.getD_eq_getElem?_getD, h2, Option.getD_some]

theorem runSwing_step_full (r l : ℕ) (p : List InBar) (b : InBar)
    (hfull : l + r + 1 ≤ p.length + 1) :
    (runSwing (swingInit r l) (p ++ [b])).pivotHigh =
      (if (lastN (l + r + 1) ((p ++ [b]).map InBar.h)).getD l 0 =
            listMax (lastN (l + r + 1) ((p ++ [b]).map InBar.h)) ∧
          listMin (lastN (l + r + 1) ((p ++ [b]).map InBar.h)) <
            (lastN (l + r + 1) ((p ++ [b]).map InBar.h)).getD l 0
       then some ((lastN (l + r + 1) ((p ++ [b]).map InBar.h)).getD l 0)
       else none) ∧
    (runSwing (swingInit r l) (p ++ [b])).pivotHighHistory =
      (runSwing (swingInit r l) p).pivotHighHistory ++
      (if (lastN (l + r + 1) ((p ++ [b]).map InBar.h)).getD l 0 =
            listMax (lastN (l + r + 1) ((p ++ [b]).map InBar.h)) ∧
          listMin (lastN (l + r + 1) ((p ++ [b]).map InBar.h)) <
            (lastN (l + r + 1) ((p ++ [b]).map InBar.h)).getD l 0
       then [(lastN (l + r + 1) (p ++ [b])).getD l b]
       else []) := by
  rw [runSwing_append]
  have hws := runSwing_windowSize r l p
  have hsl : (runSwing (swingInit r l) p).sizeL = l := by
    rw [runSwing_sizeL]; rfl
  have hsr : (runSwing (swingInit r l) p).sizeR = r := by
    rw [runSwing_sizeR]; rfl
  have hmap : (p ++ [b]).map InBar.h = p.map InBar.h ++ [b.h] := by simp
  have happ : lastN (runSwing (swingInit r l) p).windowSize
      ((runSwing (swingInit r l) p).highs ++ [b.h]) =
      lastN (l + r + 1) ((p ++ [b]).map InBar.h) := by
    rw [hws, runSwing_highs, hmap]
    exact lastN_append _ (by omega) _ _
  have hbapp : lastN (runSwing (swingInit r l) p).windowSize
      ((runSwing (swingInit r l) p).bars ++ [b]) = lastN (l + r + 1) (p ++ [b]) := by
    rw [hws, runSwing_bars]
    exact lastN_append _ (by omega) _ _
  have hlen2 : (lastN (l + r + 1) ((p ++ [b]).map InBar.h)).length = l + r + 1 := by
    rw [lastN_length]
    simp only [List.length_map, List.length_append, List.length_cons, List.length_nil]
    omega
  have hcond : ¬ ((lastN (runSwing (swingInit r l) p).windowSize
      ((runSwing (swingInit r l) p).highs ++ [b.h])).length <
      (runSwing (swingInit r l) p).windowSize) := by
    rw [happ, hlen2, hws]; omega
  have hblen : (lastN (l + r + 1) (p ++ [b])).length - (r + 1) = l := by
    rw [lastN_length]
    simp only [List.length_append, List.length_cons, List.length_nil]
    omega
  simp only [SwingState.handleBar, if_neg hcond]
  rw [happ, hbapp, hsl, hsr, hblen]
  refine ⟨rfl, ?_⟩
  split <;> simp

theorem getD_mem (xs : List α) (i : ℕ) (d : α) (hi : i < xs.length) :
    xs.getD i d ∈ xs := by
  rw [List.getD_eq_getElem?_getD, List.getElem?_eq_getElem hi, Option.getD_some]
  exact List.getElem_mem hi

theorem getD_eq_getElem' (xs : List α) (i : ℕ) (d : α) (hi : i < xs.length) :
    xs.getD i d = xs[i] := by
  rw [List.getD_eq_getElem?_getD, List.getElem?_eq_getElem hi, Option.getD_some]

theorem getD_eq_getD (xs : List α) (i : ℕ) (d1 d2 : α) (hi : i < xs.length) :
    xs.getD i d1 = xs.getD i d2 := by
  rw [getD_eq_getElem' xs i d1 hi, getD_eq_getElem' xs i d2 hi]

theorem window_getD (r l : ℕ) (bars : List InBar) (m i : ℕ)
    (hm : l + r + 1 ≤ m) (hmb : m ≤ bars.length) (hi : i < l + r + 1) :
    (lastN (l + r + 1) ((bars.take m).map InBar.h)).getD i 0 =
      (bars.getD (m - (l + r + 1) + i) default).h := by
  rw [lastN_getD]
  have hlen : ((bars.take m).map InBar.h).length = m := by
    simp only [List.length_map, List.length_take]; omega
  rw [hlen]
  have hjm : m - (l + r + 1) + i < m := by omega
  have hjt : m - (l + r + 1) + i < (bars.take m).length := by
    simp only [List.length_take]; omega
  rw [getD_map_h (bars.take m) _ hjt 0 default, getD_take bars m _ hjm default]

theorem window_mem (r l : ℕ) (bars : List InBar) (m : ℕ) (x : ℚ)
    (hm : l + r + 1 ≤ m) (hmb : m ≤ bars.length)
    (hx : x ∈ lastN (l + r + 1) ((bars.take m).map InBar.h)) :
    ∃ j, m - (l + r + 1) ≤ j ∧ j < m ∧ (bars.getD j default).h = x := by
  obtain ⟨j, hj1, hj2, hj3⟩ := lastN_mem_getD _ _ _ hx
  have hlen : ((bars.take m).map InBar.h).length = m := by
    simp only [List.length_map, List.length_take]; omega
  rw [hlen] at hj1 hj2
  have hjt : j < (bars.take m).length := by simp only [List.length_take]; omega
  refine ⟨j, hj1, hj2, ?_⟩
  rw [← hj3, getD_map_h (bars.take m) _ hjt 0 default, getD_take bars m _ hj2 default]

theorem window_bar_getD (r l : ℕ) (bars : List InBar) (m : ℕ) (d : InBar)
    (hm : l + r + 1 ≤ m) (hmb : m ≤ bars.length) :
    (lastN (l + r + 1) (bars.take m)).getD l d =
      bars.getD (m - (l + r + 1) + l) default := by
  rw [lastN_getD]
  have hlen : (bars.take m).length = m := by simp only [List.length_take]; omega
  rw [hlen]
  have hjm : m - (l + r + 1) + l < m := by omega
  have hjt : m - (l + r + 1) + l < (bars.take m).length := by
    simp only [List.length_take]; omega
  rw [getD_eq_getD _ _ d default hjt, getD_take bars m _ hjm default]

theorem nodup_ts_getD_ne (bars : List InBar) (hts : (bars.map InBar.ts).Nodup)
    (i j : ℕ) (hi : i < bars.length) (hj : j < bars.length) (hij : i ≠ j) :
    bars.getD i default ≠ bars.getD j default := by
  intro he
  rw [getD_eq_getElem' bars i default hi, getD_eq_getElem' bars j default hj] at he
  have hmi : i < (bars.map InBar.ts).length := by simp only [List.length_map]; omega
  have hmj : j < (bars.map InBar.ts).length := by simp only [List.length_map]; omega
  have h2 : (bars.map InBar.ts)[i] = (bars.map InBar.ts)[j] := by
    simp only [List.getElem_map]; rw [he]
  exact hij ((List.Nodup.getElem_inj_iff hts).mp h2)

theorem c2_window_hit (r l : ℕ) (hr : 1 ≤ r) (hl : 1 ≤ l) (bars : List InBar) (k : ℕ)
    (hk : k < bars.length) (hfull : l + r + 1 ≤ k + 1)
    (hmax : ∀ j, k + 1 - (l + r + 1) ≤ j → j ≤ k → j ≠ k - r →
      (bars.getD j default).h < (bars.getD (k - r) default).h) :
    (lastN (l + r + 1) ((bars.take (k + 1)).map InBar.h)).getD l 0 =
        listMax (lastN (l + r + 1) ((bars.take (k + 1)).map InBar.h)) ∧
    listMin (lastN (l + r + 1) ((bars.take (k + 1)).map InBar.h)) <
        (lastN (l + r + 1) ((bars.take (k + 1)).map InBar.h)).getD l 0 ∧
    (lastN (l + r + 1) ((bars.take (k + 1)).map InBar.h)).getD l 0 =
        (bars.getD (k - r) default).h := by
  have hcand : (lastN (l + r + 1) ((bars.take (k + 1)).map InBar.h)).getD l 0 =
      (bars.getD (k - r) default).h := by
    rw [window_getD r l bars (k + 1) l (by omega) (by omega) (by omega)]
    have hix : k + 1 - (l + r + 1) + l = k - r := by omega
    rw [hix]
  have hwlen : (lastN (l + r + 1) ((bars.take (k + 1)).map InBar.h)).length = l + r + 1 := by
    rw [lastN_length]
    simp only [List.length_map, List.length_take]
    omega
  have hwne : lastN (l + r + 1) ((bars.take (k + 1)).map InBar.h) ≠ [] := by
    intro hnil
    rw [hnil] at hwlen
    simp at hwlen
  have hle : ∀ x ∈ lastN (l + r + 1) ((bars.take (k + 1)).map InBar.h),
      x ≤ (bars.getD (k - r) default).h := by
    intro x hx
    obtain ⟨j, hj1, hj2, hj3⟩ := window_mem r l bars (k + 1) x (by omega) (by omega) hx
    by_cases hjk : j = k - r
    · rw [← hj3, hjk]
    · exact le_of_lt (hj3 ▸ hmax j (by omega) (by omega) hjk)
  refine ⟨?_, ?_, hcand⟩
  · have h1 : listMax (lastN (l + r + 1) ((bars.take (k + 1)).map InBar.h)) ≤
        (bars.getD (k - r) default).h := hle _ (listMax_mem _ hwne)
    have h2 : (lastN (l + r + 1) ((bars.take (k + 1)).map InBar.h)).getD l 0 ≤
        listMax (lastN (l + r + 1) ((bars.take (k + 1)).map InBar.h)) :=
      le_listMax _ _ (getD_mem _ _ _ (by omega))
    rw [hcand]
    rw [hcand] at h2
    exact le_antisymm h2 h1
  · have hx0 : (lastN (l + r + 1) ((bars.take (k + 1)).map InBar.h)).getD 0 0 =
        (bars.getD (k + 1 - (l + r + 1)) default).h := by
      rw [window_getD r l bars (k + 1) 0 (by omega) (by omega) (by omega)]
      simp
    have hne : k + 1 - (l + r + 1) ≠ k - r := by omega
    have hlt : (bars.getD (k + 1 - (l + r + 1)) default).h <
        (bars.getD (k - r) default).h := hmax _ (by omega) (by omega) hne
    have hminle : listMin (lastN (l + r + 1) ((bars.take (k + 1)).map InBar.h)) ≤
        (lastN (l + r + 1) ((bars.take (k + 1)).map InBar.h)).getD 0 0 :=
      listMin_le _ _ (getD_mem _ _ _ (by omega))
    rw [hcand]
    rw [hx0] at hminle
    exact lt_of_le_of_lt hminle hlt

/-- C2: with window parameters L, R (both positive as the constructor
demands), every prefix shorter than L+R+1 bars leaves both pivot outputs
None; and when the candidate bar (R positions before the newest, i.e. at
index L of the window) has the strictly greatest high of its window, the
pivot high is confirmed exactly on the bar completing that window, and the
candidate bar enters the pivot-high history exactly once over the whole
run (timestamps assumed distinct). -/
theorem swing_strict_max_confirmed_once
    (r l : ℕ) (hr : 1 ≤ r) (hl : 1 ≤ l) (bars : List InBar) (k : ℕ)
    (hk : k < bars.length) (hfull : l + r + 1 ≤ k + 1)
    (hmax : ∀ j, k + 1 - (l + r + 1) ≤ j → j ≤ k → j ≠ k - r →
      (bars.getD j default).h < (bars.getD (k - r) default).h)
    (hts : (bars.map InBar.ts).Nodup) :
    (∀ m, m < l + r + 1 →
      (runSwing (swingInit r l) (bars.take m)).pivotHigh = none ∧
      (runSwing (swingInit r l) (bars.take m)).pivotLow = none) ∧
    (runSwing (swingInit r l) (bars.take (k + 1))).pivotHigh =
      some (bars.getD (k - r) default).h ∧
    (runSwing (swingInit r l) bars).pivotHighHistory.count
      (bars.getD (k - r) default) = 1 := by
  have hwarm : ∀ m, m < l + r + 1 →
      (runSwing (swingInit r l) (bars.take m)).pivotHigh = none ∧
      (runSwing (swingInit r l) (bars.take m)).pivotLow = none := by
    intro m hm
    have hw := runSwing_warmup r l (bars.take m)
      (by simp only [List.length_take]; omega)
    exact ⟨hw.1, hw.2.1⟩
  have hhit := c2_window_hit r l hr hl bars k hk hfull hmax
  have htk : bars.take (k + 1) = bars.take k ++ [bars[k]] := by
    rw [List.take_succ, List.getElem?_eq_getElem hk]
    rfl
  have hstep := runSwing_step_full r l (bars.take k) (bars[k])
    (by simp only [List.length_take]; omega)
  rw [← htk] at hstep
  have hPH : (runSwing (swingInit r l) (bars.take (k + 1))).pivotHigh =
      some (bars.getD (k - r) default).h := by
    rw [hstep.1, if_pos ⟨hhit.1, hhit.2.1⟩, hhit.2.2]
  have hcount : ∀ m, m ≤ bars.length →
      (runSwing (swingInit r l) (bars.take m)).pivotHighHistory.count
        (bars.getD (k - r) default) = if k + 1 ≤ m then 1 else 0 := by
    intro m
    induction m with
    | zero =>
      intro _
      rw [if_neg (by omega)]
      simp [runSwing, swingInit]
    | succ m ih =>
      intro hm1
      have hmlt : m < bars.length := by omega
      by_cases hn : l + r + 1 ≤ m + 1
      · have htm : bars.take (m + 1) = bars.take m ++ [bars[m]] := by
          rw [List.take_succ, List.getElem?_eq_getElem hmlt]
          rfl
        have hstep2 := runSwing_step_full r l (bars.take m) (bars[m])
          (by simp only [List.length_take]; omega)
        rw [← htm] at hstep2
        rw [hstep2.2, List.count_append, ih (by omega)]
        have hcb : (lastN (l + r + 1) (bars.take (m + 1))).getD l (bars[m]) =
            bars.getD (m - r) default := by
          rw [window_bar_getD r l bars (m + 1) (bars[m]) (by omega) (by omega)]
          have hidx : m + 1 - (l + r + 1) + l = m - r := by omega
          rw [hidx]
        by_cases hmk : m = k
        · subst hmk
          have hcnd := And.intro hhit.1 hhit.2.1
          rw [if_pos hcnd, hcb]
          rw [if_neg (show ¬ (m + 1 ≤ m) by omega), if_pos (by omega)]
          simp [List.count_singleton]
        · have hneq : bars.getD (m - r) default ≠ bars.getD (k - r) default :=
            nodup_ts_getD_ne bars hts _ _ (by omega) (by omega) (by omega)
          have hz : List.count (bars.getD (k - r) default)
              (if (lastN (l + r + 1) ((bars.take (m + 1)).map InBar.h)).getD l 0 =
                    listMax (lastN (l + r + 1) ((bars.take (m + 1)).map InBar.h)) ∧
                  listMin (lastN (l + r + 1) ((bars.take (m + 1)).map InBar.h)) <
                    (lastN (l + r + 1) ((bars.take (m + 1)).map InBar.h)).getD l 0
               then [(lastN (l + r + 1) (bars.take (m + 1))).getD l (bars[m])]
               else []) = 0 := by
            split
            · rw [hcb]
              simp only [List.count_singleton, beq_iff_eq]
              rw [if_neg hneq]
            · simp
          rw [hz]
          by_cases hkm : k + 1 ≤ m
          · rw [if_pos hkm, if_pos (by omega)]
          · rw [if_neg hkm, if_neg (by omega)]
      · have hw := runSwing_warmup r l (bars.take (m + 1))
          (by simp only [List.length_take]; omega)
        rw [hw.2.2.1, if_neg (by omega)]
        simp
  refine ⟨hwarm, hPH, ?_⟩
  have hfin := hcount bars.length le_rfl
  rw [List.take_length] at hfin
  rw [hfin, if_pos (by omega)]

theorem mem_getD (xs : List α) (d : α) (x : α) (h : x ∈ xs) :
    ∃ i, i < xs.length ∧ xs.getD i d = x := by
  obtain ⟨i, hi, he⟩ := List.mem_iff_getElem.mp h
  exact ⟨i, hi, by rw [getD_eq_getElem' xs i d hi, he]⟩

/-- C3: a full window of all-equal highs never confirms a pivot high and
appends nothing to the history; symmetrically for all-equal lows; and the
suppression uses exact equality only: a candidate exceeding the other
window values by an arbitrarily small positive amount is confirmed. -/
theorem swing_flat_window_never_pivots (s : SwingState) (b : InBar) (c d e : ℚ) :
    (s.windowSize ≤ s.highs.length + 1 →
      (∀ x ∈ lastN s.windowSize (s.highs ++ [b.h]), x = c) →
      (s.handleBar b).pivotHigh = none ∧
      (s.handleBar b).pivotHighHistory = s.pivotHighHistory) ∧
    (s.windowSize ≤ s.highs.length + 1 → s.lows.length = s.highs.length →
      (∀ x ∈ lastN s.windowSize (s.lows ++ [b.l]), x = d) →
      (s.handleBar b).pivotLow = none ∧
      (s.handleBar b).pivotLowHistory = s.pivotLowHistory) ∧
    (0 < e → 1 ≤ s.sizeL → s.windowSize ≤ s.highs.length + 1 →
      (lastN s.windowSize (s.highs ++ [b.h])).getD s.sizeL 0 = c + e →
      (∀ i, i < s.windowSize → i ≠ s.sizeL →
        (lastN s.windowSize (s.highs ++ [b.h])).getD i 0 = c) →
      (s.handleBar b).pivotHigh = some (c + e)) := by
  refine ⟨?_, ?_, ?_⟩
  · intro hfull hflat
    have hlen : (lastN s.windowSize (s.highs ++ [b.h])).length = s.windowSize := by
      rw [lastN_length]
      simp only [List.length_append, List.length_cons, List.length_nil]
      omega
    have hcond : ¬ ((lastN s.windowSize (s.highs ++ [b.h])).length < s.windowSize) := by
      rw [hlen]; omega
    have hws1 : 1 ≤ s.windowSize := by
      simp only [SwingState.windowSize]; omega
    have hne : lastN s.windowSize (s.highs ++ [b.h]) ≠ [] := by
      intro hnil; rw [hnil] at hlen; simp at hlen; omega
    have hcand : (lastN s.windowSize (s.highs ++ [b.h])).getD s.sizeL 0 = c :=
      hflat _ (getD_mem _ _ _ (by rw [hlen]; simp only [SwingState.windowSize]; omega))
    have hmm := listMax_eq_listMin_of_flat _ c hne hflat
    have hno : ¬ ((lastN s.windowSize (s.highs ++ [b.h])).getD s.sizeL 0 =
        listMax (lastN s.windowSize (s.highs ++ [b.h])) ∧
        listMin (lastN s.windowSize (s.highs ++ [b.h])) <
        (lastN s.windowSize (s.highs ++ [b.h])).getD s.sizeL 0) := by
      rintro ⟨_, h2⟩
      rw [hcand, hmm.2] at h2
      exact lt_irrefl c h2
    simp only [SwingState.handleBar, if_neg hcond]
    rw [if_neg hno, if_neg hno]
    exact ⟨rfl, rfl⟩
  · intro hfull _ hflat
    have hlen : (lastN s.windowSize (s.highs ++ [b.h])).length = s.windowSize := by
      rw [lastN_length]
      simp only [List.length_append, List.length_cons, List.length_nil]
      omega
    have hcond : ¬ ((lastN s.windowSize (s.highs ++ [b.h])).length < s.windowSize) := by
      rw [hlen]; omega
    have hno : ¬ ((lastN s.windowSize (s.lows ++ [b.l])).getD s.sizeL 0 =
        listMin (lastN s.windowSize (s.lows ++ [b.l])) ∧
        (lastN s.windowSize (s.lows ++ [b.l])).getD s.sizeL 0 <
        listMax (lastN s.windowSize (s.lows ++ [b.l]))) := by
      rintro ⟨h1, h2⟩
      rcases List.eq_nil_or_concat (lastN s.windowSize (s.lows ++ [b.l])) with hnil | ⟨_, _, hcc⟩
      · rw [hnil] at h1 h2
        rw [h1] at h2
        exact lt_irrefl _ h2
      · have hne2 : lastN s.windowSize (s.lows ++ [b.l]) ≠ [] := by
          rw [hcc]; simp
        have hmm := listMax_eq_listMin_of_flat _ d hne2 hflat
        rw [h1, hmm.1, hmm.2] at h2
        exact lt_irrefl d h2
    simp only [SwingState.handleBar, if_neg hcond]
    rw [if_neg hno, if_neg hno]
    exact ⟨rfl, rfl⟩
  · intro he hsl hfull hcand hothers
    have hlen : (lastN s.windowSize (s.highs ++ [b.h])).length = s.windowSize := by
      rw [lastN_length]
      simp only [List.length_append, List.length_cons, List.length_nil]
      omega
    have hcond : ¬ ((lastN s.windowSize (s.highs ++ [b.h])).length < s.windowSize) := by
      rw [hlen]; omega
    have hub : ∀ x ∈ lastN s.windowSize (s.highs ++ [b.h]), x ≤ c + e := by
      intro x hx
      obtain ⟨i, hi, hgi⟩ := mem_getD _ (0 : ℚ) x hx
      rw [hlen] at hi
      by_cases hisl : i = s.sizeL
      · rw [← hgi, hisl, hcand]
      · rw [← hgi, hothers i hi hisl]; linarith
    have hne : lastN s.windowSize (s.highs ++ [b.h]) ≠ [] := by
      intro hnil
      rw [hnil] at hlen
      simp only [List.length_nil, SwingState.windowSize] at hlen
      omega
    have h1 : (lastN s.windowSize (s.highs ++ [b.h])).getD s.sizeL 0 =
        listMax (lastN s.windowSize (s.highs ++ [b.h])) := by
      have ha : listMax (lastN s.windowSize (s.highs ++ [b.h])) ≤ c + e :=
        hub _ (listMax_mem _ hne)
      have hb : (lastN s.windowSize (s.highs ++ [b.h])).getD s.sizeL 0 ≤
          listMax (lastN s.windowSize (s.highs ++ [b.h])) :=
        le_listMax _ _ (getD_mem _ _ _
          (by rw [hlen]; simp only [SwingState.windowSize]; omega))
      rw [hcand] at hb ⊢
      exact le_antisymm hb ha
    have h2 : listMin (lastN s.windowSize (s.highs ++ [b.h])) <
        (lastN s.windowSize (s.highs ++ [b.h])).getD s.sizeL 0 := by
      have hz : (lastN s.windowSize (s.highs ++ [b.h])).getD 0 0 = c :=
        hothers 0 (by simp only [SwingState.windowSize]; omega) (by omega)
      have hmle : listMin (lastN s.windowSize (s.highs ++ [b.h])) ≤
          (lastN s.windowSize (s.highs ++ [b.h])).getD 0 0 :=
        listMin_le _ _ (getD_mem _ _ _
          (by rw [hlen]; simp only [SwingState.windowSize]; omega))
      rw [hz] at hmle
      rw [hcand]
      linarith
    simp only [SwingState.handleBar, if_neg hcond]
    rw [if_pos ⟨h1, h2⟩, hcand]

/-- Witness for the flat-window theorem: a window of three bars at 100 is
full and flat in highs and lows, and a candidate exceeding the other
window values (here by one) is still confirmed. -/
theorem swing_flat_window_never_pivots_witness :
    ((runSwing (swingInit 1 1) [mkRBar 1 100 100, mkRBar 2 100 100]).handleBar
        (mkRBar 3 100 100)).pivotHigh = none ∧
    ((runSwing (swingInit 1 1) [mkRBar 1 100 100, mkRBar 2 100 100]).handleBar
        (mkRBar 3 100 100)).pivotLow = none ∧
    ((runSwing (swingInit 1 1)
        [mkRBar 1 100 100, mkRBar 2 101 100]).handleBar
        (mkRBar 3 100 100)).pivotHigh = some (100 + 1) := by
  refine ⟨?_, ?_, ?_⟩
  · exact ((swing_flat_window_never_pivots
      (runSwing (swingInit 1 1) [mkRBar 1 100 100, mkRBar 2 100 100])
      (mkRBar 3 100 100) 100 100 0).1 (by decide) (by decide)).1
  · exact ((swing_flat_window_never_pivots
      (runSwing (swingInit 1 1) [mkRBar 1 100 100, mkRBar 2 100 100])
      (mkRBar 3 100 100) 100 100 0).2.1 (by decide) (by decide) (by decide)).1
  · exact (swing_flat_window_never_pivots
      (runSwing (swingInit 1 1) [mkRBar 1 100 100, mkRBar 2 101 100])
      (mkRBar 3 100 100) 100 100 1).2.2 (by decide) (by decide)
      (by decide)
      (by norm_num [runSwing, swingInit, SwingState.handleBar,
            SwingState.windowSize, lastN, mkRBar, listMax, listMin])
      (by intro i h1 h2
          rw [runSwing_windowSize] at h1
          interval_cases i
          · decide
          · exact absurd rfl h2
          · decide)

/-- Witness for the strict-maximum confirmation theorem: the spec scenario
L = 2, R = 2 with highs 10, 20, 50, 20, 10 confirms the pivot high 50 on
the fifth bar only, and the originating third bar enters the history once. -/
theorem swing_strict_max_confirmed_once_witness :
    (∀ m, m < 2 + 2 + 1 →
      (runSwing (swingInit 2 2) (c2Bars.take m)).pivotHigh = none ∧
      (runSwing (swingInit 2 2) (c2Bars.take m)).pivotLow = none) ∧
    (runSwing (swingInit 2 2) (c2Bars.take (4 + 1))).pivotHigh =
      some (c2Bars.getD (4 - 2) default).h ∧
    (runSwing (swingInit 2 2) c2Bars).pivotHighHistory.count
      (c2Bars.getD (4 - 2) default) = 1 :=
  swing_strict_max_confirmed_once 2 2 (by decide) (by decide) c2Bars 4
    (by decide) (by decide)
    (by intro j h1 h2 h3
        interval_cases j
        · decide
        · decide
        · exact absurd (by decide) h3
        · decide
        · decide)
    (by decide)

/-- C1: with total_position 100000, ratio 0.9, high-weight asset at price
100 holding 0 and low-weight asset at price 50 holding 2000, the sizing
routine submits exactly one reduce-only SELL of 1800 low-weight units at
the close 50, submits no BUY, and defers a pending buy of 900 high-weight
units at the close 100, to be stored in the single pending slot. -/
theorem calc_orders_scenario_100000 :
    (calcSubmitOrders (AssetInfo.mk Inst.A 100 0) (AssetInfo.mk Inst.B 50 2000)
        100000 (9/10) (1/50)).orders =
      [Order.mk Inst.B Side.sell 1800 50 true] ∧
    (∀ o ∈ (calcSubmitOrders (AssetInfo.mk Inst.A 100 0)
        (AssetInfo.mk Inst.B 50 2000) 100000 (9/10) (1/50)).orders,
      o.side = Side.sell) ∧
    (calcSubmitOrders (AssetInfo.mk Inst.A 100 0) (AssetInfo.mk Inst.B 50 2000)
        100000 (9/10) (1/50)).deferred = [PendingBuy.mk Inst.A 900 100] ∧
    applyDeferred none
      (calcSubmitOrders (AssetInfo.mk Inst.A 100 0) (AssetInfo.mk Inst.B 50 2000)
        100000 (9/10) (1/50)).deferred = some (PendingBuy.mk Inst.A 900 100) := by
  have h1 : (calcSubmitOrders (AssetInfo.mk Inst.A 100 0)
      (AssetInfo.mk Inst.B 50 2000) 100000 (9/10) (1/50)).orders =
      [Order.mk Inst.B Side.sell 1800 50 true] := by
    norm_num [calcSubmitOrders, qtyToSellL, qtyToBuyH, pyInt, pyFloorDiv, fmt4,
      roundHalfEven]
  have h2 : (calcSubmitOrders (AssetInfo.mk Inst.A 100 0)
      (AssetInfo.mk Inst.B 50 2000) 100000 (9/10) (1/50)).deferred =
      [PendingBuy.mk Inst.A 900 100] := by
    norm_num [calcSubmitOrders, qtyToSellL, qtyToBuyH, pyInt, pyFloorDiv, fmt4,
      roundHalfEven]
  refine ⟨h1, ?_, h2, ?_⟩
  · intro o ho
    rw [h1] at ho
    rcases List.mem_singleton.mp ho with rfl
    rfl
  · rw [h2]
    rfl

/-- C9: the threshold argument influences only the flip/adjust log
classification: the submitted orders and the deferred buy legs of the
sizing routine are identical for any two threshold values, and any nonzero
computed delta yields an order or a deferred buy for that asset. -/
theorem threshold_affects_only_classification
    (aH aL : AssetInfo) (total rh t1 t2 : ℚ) :
    (calcSubmitOrders aH aL total rh t1).orders =
      (calcSubmitOrders aH aL total rh t2).orders ∧
    (calcSubmitOrders aH aL total rh t1).deferred =
      (calcSubmitOrders aH aL total rh t2).deferred ∧
    (qtyToSellL aL total rh ≠ 0 →
      (∃ o ∈ (calcSubmitOrders aH aL total rh t1).orders, o.inst = aL.id) ∨
      (∃ p ∈ (calcSubmitOrders aH aL total rh t1).deferred, p.inst = aL.id)) ∧
    (qtyToBuyH aH total rh ≠ 0 →
      (∃ o ∈ (calcSubmitOrders aH aL total rh t1).orders, o.inst = aH.id) ∨
      (∃ p ∈ (calcSubmitOrders aH aL total rh t1).deferred, p.inst = aH.id)) := by
  refine ⟨?_, ?_, ?_, ?_⟩
  · simp only [calcSubmitOrders]
    split <;> rfl
  · simp only [calcSubmitOrders]
    split <;> rfl
  · intro hne
    rcases lt_or_gt_of_ne hne with hlt | hgt
    · by_cases hbh : qtyToBuyH aH total rh < 0
      · right
        refine ⟨PendingBuy.mk aL.id (-(qtyToSellL aL total rh)) (fmt4 aL.price), ?_, rfl⟩
        have hn1 : ¬ (0 < qtyToSellL aL total rh) := by omega
        simp [calcSubmitOrders, hlt, hbh, hn1]
      · left
        refine ⟨Order.mk aL.id Side.buy (-(qtyToSellL aL total rh)) (fmt4 aL.price) false,
          ?_, rfl⟩
        have hn1 : ¬ (0 < qtyToSellL aL total rh) := by omega
        simp [calcSubmitOrders, hlt, hbh, hn1, pendingToOrder]
    · left
      refine ⟨Order.mk aL.id Side.sell (qtyToSellL aL total rh) (fmt4 aL.price) true,
        ?_, rfl⟩
      simp [calcSubmitOrders, hgt]
  · intro hne
    rcases lt_or_gt_of_ne hne with hlt | hgt
    · left
      refine ⟨Order.mk aH.id Side.sell (-(qtyToBuyH aH total rh)) (fmt4 aH.price) true,
        ?_, rfl⟩
      simp [calcSubmitOrders, hlt]
    · by_cases hsl : 0 < qtyToSellL aL total rh
      · right
        refine ⟨PendingBuy.mk aH.id (qtyToBuyH aH total rh) (fmt4 aH.price), ?_, rfl⟩
        have hn1 : ¬ (qtyToBuyH aH total rh < 0) := by omega
        simp [calcSubmitOrders, hgt, hsl, hn1]
      · left
        refine ⟨Order.mk aH.id Side.buy (qtyToBuyH aH total rh) (fmt4 aH.price) false,
          ?_, rfl⟩
        have hn1 : ¬ (qtyToBuyH aH total rh < 0) := by omega
        simp [calcSubmitOrders, hgt, hsl, hn1, pendingToOrder]

/-- Witness for the threshold theorem at the scenario inputs with
thresholds 0.02 and 0.10: both deltas are nonzero. -/
theorem threshold_affects_only_classification_witness :
    (calcSubmitOrders (AssetInfo.mk Inst.A 100 0) (AssetInfo.mk Inst.B 50 2000)
        100000 (9/10) (1/50)).orders =
      (calcSubmitOrders (AssetInfo.mk Inst.A 100 0) (AssetInfo.mk Inst.B 50 2000)
        100000 (9/10) (1/10)).orders ∧
    ((∃ o ∈ (calcSubmitOrders (AssetInfo.mk Inst.A 100 0)
        (AssetInfo.mk Inst.B 50 2000) 100000 (9/10) (1/50)).orders,
        o.inst = (AssetInfo.mk Inst.B 50 2000).id) ∨
      (∃ p ∈ (calcSubmitOrders (AssetInfo.mk Inst.A 100 0)
        (AssetInfo.mk Inst.B 50 2000) 100000 (9/10) (1/50)).deferred,
        p.inst = (AssetInfo.mk Inst.B 50 2000).id)) ∧
    ((∃ o ∈ (calcSubmitOrders (AssetInfo.mk Inst.A 100 0)
        (AssetInfo.mk Inst.B 50 2000) 100000 (9/10) (1/50)).orders,
        o.inst = (AssetInfo.mk Inst.A 100 0).id) ∨
      (∃ p ∈ (calcSubmitOrders (AssetInfo.mk Inst.A 100 0)
        (AssetInfo.mk Inst.B 50 2000) 100000 (9/10) (1/50)).deferred,
        p.inst = (AssetInfo.mk Inst.A 100 0).id)) := by
  have h := threshold_affects_only_classification (AssetInfo.mk Inst.A 100 0)
    (AssetInfo.mk Inst.B 50 2000) 100000 (9/10) (1/50) (1/10)
  refine ⟨h.1, h.2.2.1 ?_, h.2.2.2 ?_⟩
  · norm_num [qtyToSellL, pyInt, pyFloorDiv]
  · norm_num [qtyToBuyH, pyInt, pyFloorDiv]

theorem recordFill_pendingBuy (acct : AccountView) (s : StratState) (ev : FillEvent) :
    (recordFill acct s ev).pendingBuy = s.pendingBuy := rfl

theorem onOrderFilled_release (acct : AccountView) (s : StratState) (ev : FillEvent)
    (p : PendingBuy) (hp : s.pendingBuy = some p) (hside : ev.side = Side.sell) :
    (onOrderFilled acct s ev).1.pendingBuy = none ∧
    (onOrderFilled acct s ev).2 = [pendingToOrder p] := by
  have hp2 : (recordFill acct s ev).pendingBuy = some p := by
    rw [recordFill_pendingBuy, hp]
  simp only [onOrderFilled, hp2, hside]
  refine ⟨?_, ?_⟩ <;> first
    | rfl
    | trivial

theorem onOrderFilled_no_release (acct : AccountView) (s : StratState) (ev : FillEvent)
    (hside : ev.side ≠ Side.sell) :
    (onOrderFilled acct s ev).2 = [] := by
  have hb : ev.side = Side.buy := by
    cases h : ev.side
    · rfl
    · exact absurd h hside
  simp only [onOrderFilled, hb]
  cases (recordFill acct s ev).pendingBuy <;> rfl

theorem stepEvent_sell_only (s : StratState) (e : TraceEvent)
    (h1 : calcProducesSell e) (h2 : ¬ isSellFill e) :
    ∀ o ∈ (stepEvent s e).2, o.side = Side.sell := by
  intro o ho
  match e with
  | TraceEvent.calc aH aL total rh th alloc =>
    simp only [stepEvent, runCalcWith] at ho
    have hsold : 0 < qtyToSellL aL total rh ∨ qtyToBuyH aH total rh < 0 := h1
    simp only [calcSubmitOrders, if_pos hsold] at ho
    rcases List.mem_append.mp ho with hh | hh
    · split at hh
      · rcases List.mem_singleton.mp hh with rfl
        rfl
      · cases hh
    · split at hh
      · rcases List.mem_singleton.mp hh with rfl
        rfl
      · cases hh
  | TraceEvent.fill acct ev =>
    have hside : ev.side ≠ Side.sell := fun hc => h2 hc
    rw [show (stepEvent s (TraceEvent.fill acct ev)).2 =
      (onOrderFilled acct s ev).2 from rfl,
      onOrderFilled_no_release acct s ev hside] at ho
    cases ho
  | TraceEvent.reject i rr => cases ho
  | TraceEvent.deny i rr => cases ho

/-- C4: over any event sequence in which every rebalance computation
produces a sell leg and no SELL fill is observed, no BUY order is ever
submitted (every emitted order is a sell — sells go out immediately, buys
stay in the pending slot); and on a SELL fill with an occupied slot, the
fill handler submits exactly the stored buy and clears the slot. -/
theorem buy_deferred_until_sell_fill (evs : List TraceEvent) (s0 : StratState)
    (hsell : ∀ e ∈ evs, calcProducesSell e)
    (hnofill : ∀ e ∈ evs, ¬ isSellFill e) :
    (∀ o ∈ (runEvents s0 evs).2, o.side = Side.sell) ∧
    (∀ (acct : AccountView) (s : StratState) (ev : FillEvent) (p : PendingBuy),
      s.pendingBuy = some p → ev.side = Side.sell →
      (onOrderFilled acct s ev).1.pendingBuy = none ∧
      (onOrderFilled acct s ev).2 = [pendingToOrder p]) := by
  constructor
  · induction evs generalizing s0 with
    | nil => intro o ho; cases ho
    | cons e evs ih =>
      intro o ho
      simp only [runEvents] at ho
      rcases List.mem_append.mp ho with hh | hh
      · exact stepEvent_sell_only s0 e (hsell e (List.mem_cons_self e evs))
          (hnofill e (List.mem_cons_self e evs)) o hh
      · exact ih (stepEvent s0 e).1
          (fun x hx => hsell x (List.mem_cons_of_mem e hx))
          (fun x hx => hnofill x (List.mem_cons_of_mem e hx)) o hh
  · intro acct s ev p hp hside
    exact onOrderFilled_release acct s ev p hp hside

/-- Witness for the sequencing theorem: the scenario computation followed
by a BUY-side fill emits only the sell; and a SELL fill releases a stored
pending buy and clears the slot. -/
theorem buy_deferred_until_sell_fill_witness :
    (∀ o ∈ (runEvents (initState 1 1 (9/10) (1/50)) c4Events).2,
      o.side = Side.sell) ∧
    (onOrderFilled acctW
        { initState 1 1 (9/10) (1/50) with
            pendingBuy := some (PendingBuy.mk Inst.A 900 100) }
        (FillEvent.mk Inst.B Side.sell 1800 50 0)).1.pendingBuy = none ∧
    (onOrderFilled acctW
        { initState 1 1 (9/10) (1/50) with
            pendingBuy := some (PendingBuy.mk Inst.A 900 100) }
        (FillEvent.mk Inst.B Side.sell 1800 50 0)).2 =
      [pendingToOrder (PendingBuy.mk Inst.A 900 100)] := by
  have h := buy_deferred_until_sell_fill c4Events (initState 1 1 (9/10) (1/50))
    (by
      intro e he
      simp only [c4Events, List.mem_cons, List.not_mem_nil, or_false] at he
      rcases he with rfl | rfl
      · left
        norm_num [qtyToSellL, pyInt, pyFloorDiv]
      · trivial)
    (by
      intro e he
      simp only [c4Events, List.mem_cons, List.not_mem_nil, or_false] at he
      rcases he with rfl | rfl
      · simp [isSellFill]
      · simp [isSellFill])
  have h2 := h.2 acctW
    { initState 1 1 (9/10) (1/50) with
        pendingBuy := some (PendingBuy.mk Inst.A 900 100) }
    (FillEvent.mk Inst.B Side.sell 1800 50 0)
    (PendingBuy.mk Inst.A 900 100) rfl rfl
  exact ⟨h.1, h2.1, h2.2⟩

/-- C10: the rejection and denial handlers only log: the pending-buy slot,
the dedupe marker, the ledger and the daily fill log are unchanged, and a
pending buy stored before a rejection still fires on a later SELL fill. -/
theorem reject_deny_leave_state_unchanged (s : StratState) (i1 i2 : Inst)
    (r1 r2 : String) :
    (onOrderRejected s i1 r1).pendingBuy = s.pendingBuy ∧
    (onOrderRejected s i1 r1).lastActed = s.lastActed ∧
    (onOrderRejected s i1 r1).history = s.history ∧
    (onOrderRejected s i1 r1).dailyFills = s.dailyFills ∧
    onOrderDenied s i2 r2 = s ∧
    (∀ (acct : AccountView) (ev : FillEvent) (p : PendingBuy),
      s.pendingBuy = some p → ev.side = Side.sell →
      (onOrderFilled acct (onOrderRejected s i1 r1) ev).2 = [pendingToOrder p]) := by
  refine ⟨rfl, rfl, rfl, rfl, rfl, ?_⟩
  intro acct ev p hp hside
  exact (onOrderFilled_release acct (onOrderRejected s i1 r1) ev p hp hside).2

/-- Witness for the rejection theorem at a state holding a pending buy. -/
theorem reject_deny_leave_state_unchanged_witness :
    (onOrderRejected
        { initState 1 1 (9/10) (1/50) with
            pendingBuy := some (PendingBuy.mk Inst.A 900 100) }
        Inst.B "insufficient funds").pendingBuy =
      some (PendingBuy.mk Inst.A 900 100) ∧
    (onOrderFilled acctW
        (onOrderRejected
          { initState 1 1 (9/10) (1/50) with
              pendingBuy := some (PendingBuy.mk Inst.A 900 100) }
          Inst.B "insufficient funds")
        (FillEvent.mk Inst.B Side.sell 1800 50 0)).2 =
      [pendingToOrder (PendingBuy.mk Inst.A 900 100)] := by
  have h := reject_deny_leave_state_unchanged
    { initState 1 1 (9/10) (1/50) with
        pendingBuy := some (PendingBuy.mk Inst.A 900 100) }
    Inst.B Inst.B "insufficient funds" "x"
  exact ⟨h.1, h.2.2.2.2.2 acctW (FillEvent.mk Inst.B Side.sell 1800 50 0)
    (PendingBuy.mk Inst.A 900 100) rfl rfl⟩

theorem bosStep_qual (d : Dir) (pt : Option ℤ) (i : BosInput) (s : StratState)
    (hq : Qualifies d pt i) :
    (s.lastActed = some (pt, d) → bosStep s i = (s, [])) ∧
    (s.lastActed ≠ some (pt, d) → (bosStep s i).1.lastActed = some (pt, d)) := by
  cases d with
  | low =>
    obtain ⟨hpt, q, v, h1, h2, h3⟩ := hq
    have hdl : (match i.latest.ratioS, i.preLow with
        | some qq, some vv => decide (qq.l < vv)
        | _, _ => false) = true := by
      rw [h1, h2]
      exact decide_eq_true h3
    refine ⟨?_, ?_⟩
    · intro hla
      unfold bosStep bosAlloc
      dsimp only
      rw [if_pos hdl, hpt, hla, if_neg (not_not_intro rfl)]
    · intro hla
      unfold bosStep bosAlloc
      dsimp only
      rw [if_pos hdl, hpt, if_pos hla]
  | high =>
    obtain ⟨hpt, hnl, q, w, h1, h2, h3⟩ := hq
    have hdlf : (match i.latest.ratioS, i.preLow with
        | some qq, some vv => decide (qq.l < vv)
        | _, _ => false) = false := by
      rw [h1]
      cases hP : i.preLow with
      | none => rfl
      | some v =>
        have hcl : ¬ (q.l < v) := fun hc => hnl ⟨q, v, h1, hP, hc⟩
        exact decide_eq_false hcl
    have hnotl : ¬ ((match i.latest.ratioS, i.preLow with
        | some qq, some vv => decide (qq.l < vv)
        | _, _ => false) = true) := by
      rw [hdlf]
      exact Bool.false_ne_true
    have hdh : (match i.latest.ratioS, i.preHigh with
        | some qq, some ww => decide (ww < qq.h)
        | _, _ => false) = true := by
      rw [h1, h2]
      exact decide_eq_true h3
    refine ⟨?_, ?_⟩
    · intro hla
      unfold bosStep bosAlloc
      dsimp only
      rw [if_neg hnotl, if_pos hdh, hpt, hla, if_neg (not_not_intro rfl)]
    · intro hla
      unfold bosStep bosAlloc
      dsimp only
      rw [if_neg hnotl, if_pos hdh, hpt, if_pos hla]

theorem bosRunCount_locked (d : Dir) (pt : Option ℤ) (inps : List BosInput)
    (s : StratState) (hq : ∀ i ∈ inps, Qualifies d pt i)
    (hla : s.lastActed = some (pt, d)) :
    (bosRunCount s inps).2 = 0 := by
  induction inps generalizing s with
  | nil => rfl
  | cons i rest ih =>
    have hstep := (bosStep_qual d pt i s (hq i (List.mem_cons_self i rest))).1 hla
    simp only [bosRunCount, hstep]
    simp only [ne_eq, not_true_eq_false, if_false, ite_false, zero_add]
    exact ih s (fun x hx => hq x (List.mem_cons_of_mem i hx)) hla

/-- C5: a sequence of short-timeframe breakout evaluations that all
qualify for the same structural condition (same previous-swing timestamp,
same direction) fires at most one order-submission cycle — after the
first reaction the dedupe marker suppresses the rest — while a qualifying
evaluation against a new previous-swing timestamp fires again. -/
theorem bos_dedup_at_most_one_cycle (d : Dir) (pt : Option ℤ)
    (inps : List BosInput) (s0 : StratState)
    (hq : ∀ i ∈ inps, Qualifies d pt i) :
    (bosRunCount s0 inps).2 ≤ 1 ∧
    (∀ (s : StratState) (i : BosInput) (pt2 : Option ℤ),
      s.lastActed = some (pt, d) → Qualifies d pt2 i → pt2 ≠ pt →
      (bosStep s i).1.lastActed = some (pt2, d)) := by
  constructor
  · induction inps generalizing s0 with
    | nil => simp [bosRunCount]
    | cons i rest ih =>
      by_cases hla : s0.lastActed = some (pt, d)
      · rw [bosRunCount_locked d pt (i :: rest) s0 hq hla]
        omega
      · have hfire := (bosStep_qual d pt i s0 (hq i (List.mem_cons_self i rest))).2 hla
        simp only [bosRunCount]
        rw [bosRunCount_locked d pt rest (bosStep s0 i).1
          (fun x hx => hq x (List.mem_cons_of_mem i hx)) hfire]
        split <;> omega
  · intro s i pt2 hla hq2 hne
    apply (bosStep_qual d pt2 i s hq2).2
    rw [hla]
    intro hc
    simp only [Option.some.injEq, Prod.mk.injEq] at hc
    exact hne hc.1.symm

/-- Witness for the dedupe theorem: two identical qualifying low-direction
breakout inputs produce at most one cycle. -/
theorem bos_dedup_at_most_one_cycle_witness :
    (bosRunCount (initState 1 1 (9/10) (1/50)) [c5Input, c5Input]).2 ≤ 1 :=
  (bos_dedup_at_most_one_cycle Dir.low (some 100) [c5Input, c5Input]
    (initState 1 1 (9/10) (1/50))
    (by
      intro i hi
      simp only [List.mem_cons, List.not_mem_nil, or_false] at hi
      rcases hi with rfl | rfl <;>
        exact ⟨rfl, Bar4.mk 1 1 1 1, 2, rfl, rfl, by decide⟩)).1

theorem cacheStep_history (s : StratState) (bar : InBar) :
    (cacheStep s bar).history = s.history := by
  unfold cacheStep
  cases bar.stream <;> rfl

theorem ledgerStep_history (s : StratState) (bar : InBar) :
    (ledgerStep s bar).history =
      upsertHist s.history
        (mkRow (cacheStep s bar) bar.ts (newLIndex (cacheStep s bar) bar.ts)) := by
  unfold ledgerStep
  dsimp only
  rw [cacheStep_history]

theorem newLIndex_congr (s : StratState) (bar : InBar) (ts : ℤ) :
    newLIndex (cacheStep s bar) ts =
      (match lastRowFor s.history ts with
       | none => 0
       | some r => if longDiff (cacheStep s bar) r then r.lIndex + 1 else r.lIndex) := by
  unfold newLIndex
  rw [cacheStep_history]

theorem runCalcWith_history (s : StratState) (aH aL : AssetInfo)
    (total rh th : ℚ) (alloc : String) :
    (runCalcWith s aH aL total rh th alloc).1.history = s.history := rfl

theorem runCalcWith_lastActed (s : StratState) (aH aL : AssetInfo)
    (total rh th : ℚ) (alloc : String) :
    (runCalcWith s aH aL total rh th alloc).1.lastActed = s.lastActed := rfl

theorem bosAlloc_history (s : StratState) (latest : Row) (preLow preHigh : Option ℚ)
    (preTs : Option ℤ) (priceA qtyA priceB qtyB total : ℚ) :
    (bosAlloc s latest preLow preHigh preTs priceA qtyA priceB qtyB total).1.history =
      s.history := by
  unfold bosAlloc
  dsimp only
  split
  · split
    · rfl
    · rfl
  · split
    · split
      · rfl
      · rfl
    · rfl

theorem normalAlloc_history (s : StratState) (lsl lsh : Option ℚ)
    (swingRows : List Row) (priceA qtyA priceB qtyB total : ℚ) :
    (normalAlloc s lsl lsh swingRows priceA qtyA priceB qtyB total).1.history =
      s.history := by
  unfold normalAlloc
  split
  · rfl
  · split
    · rfl
    · split
      · rfl
      · rfl

theorem signalStep_history (acct : AccountView) (s : StratState) (bar : InBar) :
    (signalStep acct s bar).1.history = s.history := by
  unfold signalStep
  dsimp only
  split
  · rfl
  · split
    · rfl
    · split
      · split
        · rfl
        · split
          · rfl
          · rfl
      · split
        · rfl
        · dsimp only
          split
          · rw [normalAlloc_history]
            split
            · rw [bosAlloc_history]
            · rfl
          · split
            · rw [bosAlloc_history]
            · rfl

theorem onBar_history (acct : AccountView) (s : StratState) (bar : InBar) :
    (onBar acct s bar).1.history = (ledgerStep s bar).history := by
  unfold onBar
  rw [signalStep_history]

theorem upsertHist_append (hist : List Row) (row : Row)
    (h : ∀ r ∈ hist, r.ts < row.ts) :
    upsertHist hist row = hist ++ [row] := by
  unfold upsertHist
  rw [if_neg]
  intro hc
  obtain ⟨r, hr, hrt⟩ := List.any_eq_true.mp hc
  exact absurd (of_decide_eq_true hrt) (ne_of_lt (h r hr))

theorem upsertHist_update_last (ys : List Row) (y row : Row)
    (hy : y.ts = row.ts) (hys : ∀ r ∈ ys, r.ts < row.ts) :
    upsertHist (ys ++ [y]) row = ys ++ [row] := by
  unfold upsertHist
  rw [if_pos]
  · rw [List.map_append]
    congr 1
    · have hid : ∀ r ∈ ys, (if r.ts = row.ts then row else r) = id r := by
        intro r hr
        rw [if_neg (ne_of_lt (hys r hr))]
        rfl
      rw [List.map_congr_left hid, List.map_id]
    · simp only [List.map_cons, List.map_nil, if_pos hy]
  · exact List.any_eq_true.mpr ⟨y, by simp, decide_eq_true hy⟩

theorem lastRowFor_nil (ts : ℤ) : lastRowFor [] ts = none := rfl

theorem lastRowFor_append_lt (ys : List Row) (y : Row) (ts : ℤ) (h : y.ts < ts) :
    lastRowFor (ys ++ [y]) ts = some y := by
  unfold lastRowFor
  rw [List.getLast?_concat]
  dsimp only
  rw [if_pos h]

theorem lastRowFor_update_eq (ys : List Row) (y : Row) (ts : ℤ) (h : y.ts = ts) :
    lastRowFor (ys ++ [y]) ts = ys.getLast? := by
  unfold lastRowFor
  rw [List.getLast?_concat]
  dsimp only
  rw [if_neg (by omega), if_pos h, List.dropLast_concat]

theorem longRowDiff_mkRow (s : StratState) (ts li : ℤ) (r : Row) :
    longRowDiff (mkRow s ts li) r = longDiff s r := rfl

theorem mkRow_ts (s : StratState) (ts li : ℤ) : (mkRow s ts li).ts = ts := rfl

theorem chain_epochStep_tsLt (hist : List Row) (h : List.Chain' epochStep hist) :
    List.Pairwise tsLt hist := by
  have h2 : List.Chain' tsLt hist := List.Chain'.imp (fun _ _ hab => hab.1) h
  exact List.chain'_iff_pairwise.mp h2

theorem epochStep_to_epochLe (r1 r2 : Row) (h : epochStep r1 r2) : epochLe r1 r2 := by
  refine ⟨h.1, ?_⟩
  rcases h with ⟨_, h2⟩
  split at h2 <;> omega

theorem chain_epochStep_pairwise_le (hist : List Row)
    (h : List.Chain' epochStep hist) : List.Pairwise epochLe hist := by
  have h2 : List.Chain' epochLe hist := List.Chain'.imp epochStep_to_epochLe h
  exact List.chain'_iff_pairwise.mp h2

theorem ledgerStep_chain (s : StratState) (bar : InBar)
    (hs : List.Chain' epochStep s.history)
    (hle : ∀ r ∈ s.history, r.ts ≤ bar.ts) :
    List.Chain' epochStep (ledgerStep s bar).history ∧
    ∀ r ∈ (ledgerStep s bar).history, r.ts ≤ bar.ts := by
  rw [ledgerStep_history]
  rcases List.eq_nil_or_concat s.history with hnil | ⟨ys, y, hcat⟩
  · rw [hnil, upsertHist_append [] _ (by intro r hr; cases hr)]
    constructor
    · exact List.chain'_singleton _
    · intro r hr
      simp only [List.nil_append, List.mem_singleton] at hr
      rw [hr, mkRow_ts]
  · rw [List.concat_eq_append] at hcat
    have hpw : List.Pairwise tsLt s.history := chain_epochStep_tsLt _ hs
    have hysy : ∀ r ∈ ys, r.ts < y.ts := by
      intro r hr
      rw [hcat] at hpw
      exact (List.pairwise_append.mp hpw).2.2 r hr y (List.mem_singleton_self y)
    have hyle : y.ts ≤ bar.ts := hle y (by rw [hcat]; simp)
    rcases lt_or_eq_of_le hyle with hlt | heq
    · have hall : ∀ r ∈ s.history, r.ts < bar.ts := by
        intro r hr
        rw [hcat] at hr
        rcases List.mem_append.mp hr with h1 | h1
        · exact lt_trans (hysy r h1) hlt
        · rw [List.mem_singleton.mp h1]
          exact hlt
      rw [upsertHist_append s.history _
        (by intro r hr; rw [mkRow_ts]; exact hall r hr)]
      constructor
      · apply List.Chain'.append hs (List.chain'_singleton _)
        intro a ha b hb
        have ha2 : s.history.getLast? = some a := Option.mem_def.mp ha
        have hb2 : b = mkRow (cacheStep s bar) bar.ts
            (newLIndex (cacheStep s bar) bar.ts) := by
          have := Option.mem_def.mp hb
          simp only [List.head?_cons] at this
          exact ((Option.some.injEq _ _).mp this).symm
        have hay : a = y := by
          rw [hcat, List.getLast?_concat] at ha2
          exact ((Option.some.injEq _ _).mp ha2).symm
        subst hay
        subst hb2
        constructor
        · rw [mkRow_ts]
          exact hlt
        · rw [longRowDiff_mkRow]
          show newLIndex (cacheStep s bar) bar.ts = _
          rw [newLIndex_congr, hcat, lastRowFor_append_lt ys a bar.ts hlt]
      · intro r hr
        rcases List.mem_append.mp hr with h1 | h1
        · exact le_of_lt (hall r h1)
        · rw [List.mem_singleton.mp h1, mkRow_ts]
    · have hysb : ∀ r ∈ ys, r.ts < bar.ts := fun r hr => heq ▸ hysy r hr
      rw [hcat, upsertHist_update_last ys y _
        (by rw [mkRow_ts]; exact heq)
        (by intro r hr; rw [mkRow_ts]; exact hysb r hr)]
      have hchain_ys : List.Chain' epochStep ys := by
        rw [hcat] at hs
        exact (List.chain'_append.mp hs).1
      constructor
      · apply List.Chain'.append hchain_ys (List.chain'_singleton _)
        intro a ha b hb
        have ha2 : ys.getLast? = some a := Option.mem_def.mp ha
        have hb2 : b = mkRow (cacheStep s bar) bar.ts
            (newLIndex (cacheStep s bar) bar.ts) := by
          have := Option.mem_def.mp hb
          simp only [List.head?_cons] at this
          exact ((Option.some.injEq _ _).mp this).symm
        subst hb2
        have hmem : a ∈ ys := List.mem_of_mem_getLast? ha
        constructor
        · rw [mkRow_ts]
          exact hysb a hmem
        · rw [longRowDiff_mkRow]
          show newLIndex (cacheStep s bar) bar.ts = _
          rw [newLIndex_congr, hcat, lastRowFor_update_eq ys y bar.ts heq, ha2]
      · intro r hr
        rcases List.mem_append.mp hr with h1 | h1
        · exact le_of_lt (hysb r h1)
        · rw [List.mem_singleton.mp h1, mkRow_ts]

theorem runBars_chain (acct : AccountView) (s : StratState) (bars : List InBar)
    (hs : List.Chain' epochStep s.history)
    (hb : ∀ r ∈ s.history, ∀ b ∈ bars, r.ts ≤ b.ts)
    (hmono : bars.Pairwise (fun a b : InBar => a.ts ≤ b.ts)) :
    List.Chain' epochStep (runBars acct s bars).1.history := by
  induction bars generalizing s with
  | nil => exact hs
  | cons b bs ih =>
    simp only [runBars]
    apply ih (onBar acct s b).1
    · rw [onBar_history]
      exact (ledgerStep_chain s b hs
        (fun r hr => hb r hr b (List.mem_cons_self b bs))).1
    · intro r hr b2 hb2
      rw [onBar_history] at hr
      have h1 : r.ts ≤ b.ts :=
        (ledgerStep_chain s b hs
          (fun r2 hr2 => hb r2 hr2 b (List.mem_cons_self b bs))).2 r hr
      have h2 : b.ts ≤ b2.ts := (List.pairwise_cons.mp hmono).1 b2 hb2
      omega
    · exact (List.pairwise_cons.mp hmono).2

/-- C7 (amended): for every bar sequence delivered in non-decreasing
timestamp order, adjacent ledger rows satisfy the epoch invariant — the
epoch is the previous epoch plus one exactly when a long-timeframe OHLC
quadruple stored in the row differs from the preceding row, else copied —
and the epoch column is non-decreasing in timestamp order.  The original
claim over arbitrary sequences fails on out-of-order arrival. -/
theorem lindex_monotone_in_order (acct : AccountView) (r l : ℕ) (rh th : ℚ)
    (bars : List InBar)
    (hmono : bars.Pairwise (fun a b : InBar => a.ts ≤ b.ts)) :
    List.Chain' epochStep (runBars acct (initState r l rh th) bars).1.history ∧
    ∀ r1 ∈ (runBars acct (initState r l rh th) bars).1.history,
    ∀ r2 ∈ (runBars acct (initState r l rh th) bars).1.history,
      r1.ts < r2.ts → r1.lIndex ≤ r2.lIndex := by
  have hchain := runBars_chain acct (initState r l rh th) bars
    (by simp [initState]) (by intro rr hr; cases hr) hmono
  refine ⟨hchain, ?_⟩
  have hpl := chain_epochStep_pairwise_le _ hchain
  intro r1 h1 r2 h2 hlt
  obtain ⟨i, hi, hieq⟩ := List.mem_iff_getElem.mp h1
  obtain ⟨j, hj, hjeq⟩ := List.mem_iff_getElem.mp h2
  rcases lt_trichotomy i j with hij | hij | hij
  · have hle := List.pairwise_iff_getElem.mp hpl i j hi hj hij
    rw [hieq, hjeq] at hle
    exact hle.2
  · exfalso
    subst hij
    have he : r1 = r2 := hieq.symm.trans hjeq
    rw [he] at hlt
    exact lt_irrefl _ hlt
  · have hle := List.pairwise_iff_getElem.mp hpl j i hj hi hij
    rw [hieq, hjeq] at hle
    exact absurd hlt (lt_asymm hle.1)

/-- C7 counterexample: three ratio-long bars arriving at timestamps 1, 3,
2 store epochs 0, 0, 1, i.e. 0, 1, 0 in timestamp order: the epoch column
is not non-decreasing in timestamp order, refuting the original claim for
arbitrary sequences. -/
theorem lindex_not_monotone_out_of_order :
    ∃ r1 ∈ oooHist, ∃ r2 ∈ oooHist, r1.ts < r2.ts ∧ r2.lIndex < r1.lIndex := by
  decide

/-- Witness for the in-order epoch theorem: three in-order ratio-long
bars with a value change on the second. -/
theorem lindex_monotone_in_order_witness :
    List.Chain' epochStep
      (runBars acctW (initState 1 1 (9/10) (1/50))
        [mkRBar 1 5 5, mkRBar 2 6 6, mkRBar 3 6 6]).1.history ∧
    ∀ r1 ∈ (runBars acctW (initState 1 1 (9/10) (1/50))
        [mkRBar 1 5 5, mkRBar 2 6 6, mkRBar 3 6 6]).1.history,
    ∀ r2 ∈ (runBars acctW (initState 1 1 (9/10) (1/50))
        [mkRBar 1 5 5, mkRBar 2 6 6, mkRBar 3 6 6]).1.history,
      r1.ts < r2.ts → r1.lIndex ≤ r2.lIndex :=
  lindex_monotone_in_order acctW 1 1 (9/10) (1/50)
    [mkRBar 1 5 5, mkRBar 2 6 6, mkRBar 3 6 6]
    (by
      refine List.Pairwise.cons ?_ (List.Pairwise.cons ?_ ?_)
      · intro b hb
        simp only [List.mem_cons, List.not_mem_nil, or_false] at hb
        rcases hb with rfl | rfl <;> decide
      · intro b hb
        simp only [List.mem_cons, List.not_mem_nil, or_false] at hb
        rcases hb with rfl
        decide
      · exact List.pairwise_singleton _ _)

/-- C8 (amended): a bar whose timestamp already has a ledger row updates
that row in place, leaving the row count unchanged; but the epoch of the
updated row is recomputed against the row immediately before it (previous
epoch plus one exactly when the long-timeframe caches differ from that
row, zero when there is no earlier row) rather than preserved.  The
original preservation claim fails: see the counterexample. -/
theorem same_ts_update_row_count_and_lindex (acct : AccountView)
    (s : StratState) (bar : InBar) :
    ((∃ r ∈ s.history, r.ts = bar.ts) →
      (onBar acct s bar).1.history.length = s.history.length) ∧
    (∀ ys y, s.history = ys ++ [y] → y.ts = bar.ts →
      (∀ r ∈ ys, r.ts < bar.ts) →
      (onBar acct s bar).1.history =
        ys ++ [mkRow (cacheStep s bar) bar.ts
          (match ys.getLast? with
           | none => 0
           | some z => if longDiff (cacheStep s bar) z then z.lIndex + 1
                       else z.lIndex)]) := by
  constructor
  · rintro ⟨r, hr, hrts⟩
    rw [onBar_history, ledgerStep_history]
    unfold upsertHist
    rw [if_pos (List.any_eq_true.mpr
      ⟨r, hr, decide_eq_true (by rw [hrts, mkRow_ts])⟩)]
    rw [List.length_map]
  · intro ys y hcat hyts hysb
    rw [onBar_history, ledgerStep_history, hcat,
      upsertHist_update_last ys y _
        (by rw [mkRow_ts]; exact hyts)
        (by intro rr hr; rw [mkRow_ts]; exact hysb rr hr)]
    congr 2
    rw [newLIndex_congr, hcat, lastRowFor_update_eq ys y bar.ts hyts]

/-- C8 counterexample: after a ratio-long bar at timestamp 1 and an
asset bar at timestamp 2 the row at timestamp 2 has epoch 0; a ratio-long
bar at the existing timestamp 2 with changed values updates the row in
place (row count stays 2) but its epoch becomes 1: the epoch is not
preserved by same-timestamp updates. -/
theorem lindex_update_changes_counterexample :
    updState2.history.length = 2 ∧
    (updState2.history.getD 1 default).ts = 2 ∧
    (updState2.history.getD 1 default).lIndex = 0 ∧
    (onBar acctW updState2 updBar3).1.history.length = 2 ∧
    ((onBar acctW updState2 updBar3).1.history.getD 1 default).ts = 2 ∧
    ((onBar acctW updState2 updBar3).1.history.getD 1 default).lIndex = 1 := by
  decide

/-- Witness for the update theorem at the concrete two-row ledger. -/
theorem same_ts_update_row_count_and_lindex_witness :
    (onBar acctW updState2 updBar3).1.history.length = updState2.history.length ∧
    (onBar acctW updState2 updBar3).1.history =
      [mkPlainRow 1 0 none none (some (Bar4.mk 5 5 5 5))] ++
      [mkRow (cacheStep updState2 updBar3) updBar3.ts
        (match [mkPlainRow 1 0 none none (some (Bar4.mk 5 5 5 5))].getLast? with
         | none => 0
         | some z => if longDiff (cacheStep updState2 updBar3) z then z.lIndex + 1
                     else z.lIndex)] := by
  have h := same_ts_update_row_count_and_lindex acctW updState2 updBar3
  exact ⟨h.1 ⟨mkPlainRow 2 0 (some quadA) none (some (Bar4.mk 5 5 5 5)),
      by decide, by decide⟩,
    h.2 [mkPlainRow 1 0 none none (some (Bar4.mk 5 5 5 5))]
      (mkPlainRow 2 0 (some quadA) none (some (Bar4.mk 5 5 5 5)))
      (by decide) (by decide) (by decide)⟩

/-- On a long-ratio bar, the cache step updates the long swing detector
and the long ratio cache and nothing else. -/
theorem cacheStep_ratioL (s : StratState) (bar : InBar)
    (h : bar.stream = StreamId.ratioL) :
    cacheStep s bar =
      { s with swingL := s.swingL.handleBar bar,
               cacheRatioL := some (Bar4.mk bar.o bar.h bar.l bar.c) } := by
  unfold cacheStep
  rw [h]

/-- The row inserted for the current timestamp is never a previous swing
row for that timestamp: appending it leaves the lookup unchanged. -/
theorem swingLRows_append_self (hist : List Row) (row : Row) (ts : ℤ)
    (hts : row.ts = ts) :
    swingLRows (hist ++ [row]) ts = swingLRows hist ts := by
  have h1 : swingLRows (hist ++ [row]) ts
      = swingLRows hist ts ++ swingLRows [row] ts := by
    unfold swingLRows
    rw [List.filter_append, List.filter_append]
  have h2 : swingLRows [row] ts = [] := by
    unfold swingLRows
    rw [List.filter_eq_nil]
    intro a ha
    have ha2 : a ∈ [row] := List.mem_of_mem_filter ha
    rw [List.mem_singleton] at ha2
    subst ha2
    simp [hts]
  rw [h1, h2, List.append_nil]

/-- With known prices and nonzero invested equity, the decision step is a
no-op whenever no truthy previous swing row exists: the early return of
on_bar before any allocation branch. -/
theorem signalStep_no_preswing (acct : AccountView) (s : StratState) (bar : InBar)
    (heq : heldVal acct.qtyA ((s.cacheAS.map Bar4.c).getD 0) +
           heldVal acct.qtyB ((s.cacheBS.map Bar4.c).getD 0) ≠ 0)
    (hpre : ∀ rr ∈ (swingLRows s.history bar.ts).getLast?,
      ¬ pyTruthy rr.swingLLow ∧ ¬ pyTruthy rr.swingLHigh) :
    signalStep acct s bar = (s, []) := by
  unfold signalStep
  split
  · rfl
  · dsimp only
    cases hpp : (swingLRows s.history bar.ts).getLast? with
    | none =>
      split
      · rfl
      · rw [if_neg fun hc => heq hc.1]
        rw [if_pos ⟨fun ht => ht.1 rfl, fun ht => ht.1 rfl⟩]
    | some rr =>
      obtain ⟨hL, hH⟩ := hpre rr (by rw [hpp]; exact rfl)
      split
      · rfl
      · rw [if_neg fun hc => heq hc.1]
        rw [if_pos ⟨hH, hL⟩]

/-- C6 counterexample: on a long-timeframe ratio bar with both prices
cached and nonzero invested equity, the bar itself confirms a fresh long
pivot-low (value 1), yet on_bar submits no orders and stores no pending
buy. The early return at the previous-swing lookup fires because the
freshly confirmed pivot sits on the current row, which the lookup drops,
and no earlier ledger row carries a truthy swing value. -/
theorem pivot_confirmed_without_prior_swing_no_action :
    (cexState.swingL.handleBar cexBar).pivotLow = some 1 ∧
    cexState.cacheAS = some quadA ∧ cexState.cacheBS = some quadB ∧
    heldVal acctW.qtyA quadA.c + heldVal acctW.qtyB quadB.c ≠ 0 ∧
    (onBar acctW cexState cexBar).2 = [] ∧
    (onBar acctW cexState cexBar).1.pendingBuy = none := by
  have hmain : signalStep acctW (ledgerStep cexState cexBar) cexBar
      = (ledgerStep cexState cexBar, []) := by
    apply signalStep_no_preswing
    · show heldVal (1 : ℚ) 10 + heldVal (0 : ℚ) 20 ≠ 0
      norm_num [heldVal]
    · intro rr hrr
      have h0 : (swingLRows (ledgerStep cexState cexBar).history cexBar.ts).getLast?
          = none := by decide
      rw [h0, Option.mem_def] at hrr
      exact Option.noConfusion hrr
  refine ⟨by decide, rfl, rfl, ?_, ?_, ?_⟩
  · norm_num [heldVal, acctW, quadA, quadB]
  · show (signalStep acctW (ledgerStep cexState cexBar) cexBar).2 = []
    rw [hmain]
  · show (signalStep acctW (ledgerStep cexState cexBar) cexBar).1.pendingBuy = none
    rw [hmain]
    exact rfl

/-- Normal-allocation path, low direction: on a long-ratio bar with known
prices, nonzero invested equity, a truthy previous swing row and a latest
ledger row carrying a confirmed long pivot-low, the decision step is
exactly one sizing call with asset A as the high-weight leg. -/
theorem signalStep_normal_low (acct : AccountView) (s2 : StratState) (bar : InBar)
    (qa qb : Bar4) (latest rr : Row) (v : ℚ)
    (hstream : bar.stream = StreamId.ratioL)
    (hpa : s2.cacheAS = some qa) (hpb : s2.cacheBS = some qb)
    (hlast : s2.history.getLast? = some latest)
    (hlsl : latest.swingLLow = some v)
    (heq : heldVal acct.qtyA qa.c + heldVal acct.qtyB qb.c ≠ 0)
    (hpre : (swingLRows s2.history bar.ts).getLast? = some rr)
    (htru : pyTruthy rr.swingLLow ∨ pyTruthy rr.swingLHigh) :
    signalStep acct s2 bar =
      runCalc s2 (AssetInfo.mk Inst.A qa.c acct.qtyA)
        (AssetInfo.mk Inst.B qb.c acct.qtyB)
        (acct.cash + heldVal acct.qtyA qa.c + heldVal acct.qtyB qb.c) "Normal" := by
  have hnil : s2.history ≠ [] := by
    intro hn
    rw [hn] at hlast
    exact Option.noConfusion hlast
  have hswnil : swingLRows s2.history bar.ts ≠ [] := by
    intro hn
    rw [hn] at hpre
    exact Option.noConfusion hpre
  unfold signalStep
  dsimp only
  rw [hpa, hpb, hstream, hpre, hlast]
  simp only [Option.map_some', Option.getD_some]
  split
  next hc => exact absurd hc (by simp)
  next =>
    rw [if_neg fun hc => heq hc.1]
    rw [if_neg fun hc => htru.elim hc.2 hc.1]
    rw [if_pos ⟨trivial, hnil⟩]
    rw [if_neg fun hc => StreamId.noConfusion hc.1]
    dsimp only
    unfold normalAlloc
    rw [hlsl]
    rw [if_neg fun hc => Option.noConfusion hc.1]
    rw [if_pos ⟨fun hc => Option.noConfusion hc, hswnil⟩]
    simp only [List.nil_append]

/-- Normal-allocation path, high direction: symmetrically, a latest row
with no confirmed pivot-low but a confirmed pivot-high sizes with asset B
as the high-weight leg. -/
theorem signalStep_normal_high (acct : AccountView) (s2 : StratState) (bar : InBar)
    (qa qb : Bar4) (latest rr : Row) (v : ℚ)
    (hstream : bar.stream = StreamId.ratioL)
    (hpa : s2.cacheAS = some qa) (hpb : s2.cacheBS = some qb)
    (hlast : s2.history.getLast? = some latest)
    (hlsl : latest.swingLLow = none)
    (hlsh : latest.swingLHigh = some v)
    (heq : heldVal acct.qtyA qa.c + heldVal acct.qtyB qb.c ≠ 0)
    (hpre : (swingLRows s2.history bar.ts).getLast? = some rr)
    (htru : pyTruthy rr.swingLLow ∨ pyTruthy rr.swingLHigh) :
    signalStep acct s2 bar =
      runCalc s2 (AssetInfo.mk Inst.B qb.c acct.qtyB)
        (AssetInfo.mk Inst.A qa.c acct.qtyA)
        (acct.cash + heldVal acct.qtyA qa.c + heldVal acct.qtyB qb.c) "Normal" := by
  have hnil : s2.history ≠ [] := by
    intro hn
    rw [hn] at hlast
    exact Option.noConfusion hlast
  have hswnil : swingLRows s2.history bar.ts ≠ [] := by
    intro hn
    rw [hn] at hpre
    exact Option.noConfusion hpre
  unfold signalStep
  dsimp only
  rw [hpa, hpb, hstream, hpre, hlast]
  simp only [Option.map_some', Option.getD_some]
  split
  next hc => exact absurd hc (by simp)
  next =>
    rw [if_neg fun hc => heq hc.1]
    rw [if_neg fun hc => htru.elim hc.2 hc.1]
    rw [if_pos ⟨trivial, hnil⟩]
    rw [if_neg fun hc => StreamId.noConfusion hc.1]
    dsimp only
    unfold normalAlloc
    rw [hlsl, hlsh]
    rw [if_neg fun hc => Option.noConfusion hc.2]
    rw [if_neg fun hc => hc.1 rfl]
    rw [if_pos ⟨fun hc => Option.noConfusion hc, hswnil⟩]
    simp only [List.nil_append]

/-- C6 (corrected): on a long-timeframe ratio bar with known prices,
nonzero invested equity and an in-order ledger (rows before the last
strictly older than the bar; the bar's own timestamp may already hold the
last row, which the upsert then updates in place, or be fresh, appending
a row), a pivot confirmed by the bar itself triggers exactly one Normal
sizing call — toward asset A on a confirmed pivot-low, toward asset B on
a confirmed pivot-high with no simultaneous pivot-low — and this holds
for every value of the dedupe marker. The claimed unconditional firing
requires the extra hypothesis that some earlier ledger row already
carries a truthy confirmed swing value: without one, on_bar returns early
and the freshly confirmed pivot triggers nothing (see the
counterexample). -/
theorem pivot_with_prior_swing_rebalances (acct : AccountView) (s : StratState)
    (bar : InBar) (qa qb : Bar4) (v : ℚ) (rr : Row)
    (hstream : bar.stream = StreamId.ratioL)
    (hord : ∀ r ∈ s.history.dropLast, r.ts < bar.ts)
    (hle : ∀ r ∈ s.history, r.ts ≤ bar.ts)
    (hpa : s.cacheAS = some qa) (hpb : s.cacheBS = some qb)
    (heq : heldVal acct.qtyA qa.c + heldVal acct.qtyB qb.c ≠ 0)
    (hpre : preSwing s.history bar.ts = some rr)
    (htru : pyTruthy rr.swingLLow ∨ pyTruthy rr.swingLHigh) :
    ((s.swingL.handleBar bar).pivotLow = some v →
      onBar acct s bar =
        runCalc (ledgerStep s bar) (AssetInfo.mk Inst.A qa.c acct.qtyA)
          (AssetInfo.mk Inst.B qb.c acct.qtyB)
          (acct.cash + heldVal acct.qtyA qa.c + heldVal acct.qtyB qb.c) "Normal") ∧
    ((s.swingL.handleBar bar).pivotLow = none →
      (s.swingL.handleBar bar).pivotHigh = some v →
      onBar acct s bar =
        runCalc (ledgerStep s bar) (AssetInfo.mk Inst.B qb.c acct.qtyB)
          (AssetInfo.mk Inst.A qa.c acct.qtyA)
          (acct.cash + heldVal acct.qtyA qa.c + heldVal acct.qtyB qb.c) "Normal") := by
  have hcs := cacheStep_ratioL s bar hstream
  have h2a : (ledgerStep s bar).cacheAS = some qa := by
    show (cacheStep s bar).cacheAS = some qa
    rw [hcs]
    exact hpa
  have h2b : (ledgerStep s bar).cacheBS = some qb := by
    show (cacheStep s bar).cacheBS = some qb
    rw [hcs]
    exact hpb
  have hkey : (ledgerStep s bar).history.getLast?
      = some (mkRow (cacheStep s bar) bar.ts (newLIndex (cacheStep s bar) bar.ts)) ∧
      (swingLRows (ledgerStep s bar).history bar.ts).getLast? = some rr := by
    rcases List.eq_nil_or_concat s.history with hnil | ⟨ys, y, hcat⟩
    · rw [hnil] at hpre
      exact absurd hpre (by simp [preSwing, swingLRows])
    · rw [List.concat_eq_append] at hcat
      have hys : ∀ r ∈ ys, r.ts < bar.ts := by
        intro r hr
        apply hord
        rw [hcat, List.dropLast_concat]
        exact hr
      have hymem : y ∈ s.history := by
        rw [hcat]
        exact List.mem_append_right ys (List.mem_singleton_self y)
      rcases (hle y hymem).eq_or_lt with hyeq | hylt
      · have hhist : (ledgerStep s bar).history
            = ys ++ [mkRow (cacheStep s bar) bar.ts (newLIndex (cacheStep s bar) bar.ts)] := by
          rw [ledgerStep_history, hcat]
          exact upsertHist_update_last ys y _ hyeq (fun r hr => hys r hr)
        refine ⟨by rw [hhist]; exact List.getLast?_concat _, ?_⟩
        rw [hhist, swingLRows_append_self ys
          (mkRow (cacheStep s bar) bar.ts (newLIndex (cacheStep s bar) bar.ts)) bar.ts rfl]
        rw [hcat] at hpre
        unfold preSwing at hpre
        rw [swingLRows_append_self ys y bar.ts hyeq] at hpre
        exact hpre
      · have hall : ∀ r ∈ s.history, r.ts < bar.ts := by
          intro r hr
          rw [hcat] at hr
          rcases List.mem_append.mp hr with h1 | h1
          · exact hys r h1
          · rw [List.mem_singleton] at h1
            subst h1
            exact hylt
        have hhist : (ledgerStep s bar).history
            = s.history ++ [mkRow (cacheStep s bar) bar.ts (newLIndex (cacheStep s bar) bar.ts)] := by
          rw [ledgerStep_history]
          exact upsertHist_append _ _ (fun r hr => hall r hr)
        refine ⟨by rw [hhist]; exact List.getLast?_concat _, ?_⟩
        rw [hhist, swingLRows_append_self s.history
          (mkRow (cacheStep s bar) bar.ts (newLIndex (cacheStep s bar) bar.ts)) bar.ts rfl]
        exact hpre
  obtain ⟨hlast, hpre2⟩ := hkey
  constructor
  · intro hlow
    have hrowlsl : (mkRow (cacheStep s bar) bar.ts
        (newLIndex (cacheStep s bar) bar.ts)).swingLLow = some v := by
      show (cacheStep s bar).swingL.pivotLow = some v
      rw [hcs]
      exact hlow
    show signalStep acct (ledgerStep s bar) bar = _
    exact signalStep_normal_low acct (ledgerStep s bar) bar qa qb _ rr v hstream
      h2a h2b hlast hrowlsl heq hpre2 htru
  · intro hlow hhigh
    have hrowlsl : (mkRow (cacheStep s bar) bar.ts
        (newLIndex (cacheStep s bar) bar.ts)).swingLLow = none := by
      show (cacheStep s bar).swingL.pivotLow = none
      rw [hcs]
      exact hlow
    have hrowlsh : (mkRow (cacheStep s bar) bar.ts
        (newLIndex (cacheStep s bar) bar.ts)).swingLHigh = some v := by
      show (cacheStep s bar).swingL.pivotHigh = some v
      rw [hcs]
      exact hhigh
    show signalStep acct (ledgerStep s bar) bar = _
    exact signalStep_normal_high acct (ledgerStep s bar) bar qa qb _ rr v hstream
      h2a h2b hlast hrowlsl hrowlsh heq hpre2 htru

/-- Witness: at the concrete seven-row state whose timestamp-5 row holds
the confirmed swing low 1, the bar completing the window 4, 0, 1 confirms
the pivot low 0 and the decision step runs one Normal sizing call with
asset A as the high-weight leg. -/
theorem pivot_with_prior_swing_rebalances_witness :
    (wState.swingL.handleBar wBar).pivotLow = some 0 ∧
    onBar acctW wState wBar =
      runCalc (ledgerStep wState wBar) (AssetInfo.mk Inst.A quadA.c acctW.qtyA)
        (AssetInfo.mk Inst.B quadB.c acctW.qtyB)
        (acctW.cash + heldVal acctW.qtyA quadA.c + heldVal acctW.qtyB quadB.c)
        "Normal" :=
  ⟨by decide,
   (pivot_with_prior_swing_rebalances acctW wState wBar quadA quadB 0
      { mkPlainRow 5 3 (some quadA) (some quadB) (some (Bar4.mk 5 10 5 5)) with
          swingLLow := some 1 }
      rfl (by decide) (by decide) rfl rfl
      (by norm_num [heldVal, acctW, quadA, quadB])
      (by decide) (by decide)).1 (by decide)⟩
